import Mathlib

/-!
# pbclient: query encoding, token expiry, pagination, decoding and timestamp transcoding

A shallow embedding of the Go package `pbclient` (files `params.go`, `models.go`,
`helpers.go`, `pbclient.go`).

Conventions of the embedding
* A Go `string` / `[]byte` is a list of bytes, each byte a natural number below 256
  (`GoString`).  ASCII literals are written `ascii "..."`.
* A Go `int` / `int64` is an `Int`; where the source performs arithmetic the result is
  wrapped into the signed 64-bit range by `wrapInt64`.
* The standard-library functions the package calls (`strings`, `fmt`, `net/url`,
  `regexp`, `bytes`, `unicode/utf8`, `encoding/base64`, `encoding/json`, `time`) are
  modelled by executable definitions that follow the documented behaviour of the
  Go implementation on the paths the package exercises.
-/

set_option linter.dupNamespace false

namespace Pbclient

/-! ## Strings and bytes -/

/-- A Go string or byte slice: the list of its bytes. -/
abbrev GoString := List Nat

/-- The bytes of an ASCII literal. -/
def ascii (s : String) : GoString := s.toList.map Char.toNat

/-- Every element is a byte. -/
def IsBytes (s : GoString) : Prop := ∀ c ∈ s, c < 256

/-- Go `strings.HasPrefix`. -/
def HasPrefix : GoString → GoString → Bool
  | _, [] => true
  | [], _ :: _ => false
  | c :: s, d :: pre => c == d && HasPrefix s pre

/-- Go `strings.TrimPrefix`: drops the leading `pre` once when present. -/
def TrimPrefix (s pre : GoString) : GoString :=
  if HasPrefix s pre then s.drop pre.length else s

/-- Go `fmt.Sprintf("%d", n)` for an integer argument: the decimal numeral. -/
def formatInt : Int → GoString
  | Int.ofNat k => (Nat.toDigits 10 k).map Char.toNat
  | Int.negSucc k => 45 :: (Nat.toDigits 10 (k + 1)).map Char.toNat

/-! ## net/url: query escaping -/

/-- Go `url.shouldEscape(c, encodeQueryComponent)`: the unreserved characters
(letters, digits, `-`, `_`, `.`, `~`) are kept, every other byte is escaped. -/
def shouldEscape (c : Nat) : Bool :=
  if (97 ≤ c ∧ c ≤ 122) ∨ (65 ≤ c ∧ c ≤ 90) ∨ (48 ≤ c ∧ c ≤ 57) then false
  else if c = 45 ∨ c = 95 ∨ c = 46 ∨ c = 126 then false
  else true

/-- The table `upperhex` of `net/url`. -/
def upperhex : GoString := ascii "0123456789ABCDEF"

/-- The second loop of Go `url.escape`: a space becomes `+`, a byte that must be
escaped becomes `%XY` (upper-case hexadecimal), any other byte is copied. -/
def escapeLoop : GoString → GoString
  | [] => []
  | c :: s =>
    if c = 32 then 43 :: escapeLoop s
    else if shouldEscape c then
      37 :: upperhex.getD (c / 16) 0 :: upperhex.getD (c % 16) 0 :: escapeLoop s
    else c :: escapeLoop s

/-- The number of spaces counted by the first loop of Go `url.escape`. -/
def spaceCount (s : GoString) : Nat := (s.filter fun c => shouldEscape c && c == 32).length

/-- The number of bytes needing a `%XY` escape counted by the first loop of `url.escape`. -/
def hexCount (s : GoString) : Nat := (s.filter fun c => shouldEscape c && c != 32).length

/-- Go `url.QueryEscape` (`escape(s, encodeQueryComponent)`): the input is returned as is
when nothing needs escaping, spaces alone are replaced in place, otherwise the string is
rebuilt byte by byte. -/
def QueryEscape (s : GoString) : GoString :=
  if spaceCount s = 0 ∧ hexCount s = 0 then s
  else if hexCount s = 0 then s.map fun c => if c = 32 then 43 else c
  else escapeLoop s

/-! ## params.go -/

/-- The request parameters of `params.go`. `Data` (an `interface{}` payload) is kept as an
optional opaque byte string; it plays no part in the query string. The field `Sort` is
spelled `Sort'` because `Sort` is reserved in Lean. -/
structure Params where
  Token : GoString := []
  Collection : GoString := []
  Data : Option GoString := none
  ID : GoString := []
  FileName : GoString := []
  Page : Int := 0
  PerPage : Int := 0
  Sort' : GoString := []
  Filter : GoString := []
  Expand : GoString := []
  Fields : GoString := []
  SkipTotal : Bool := false
  Thumb : GoString := []

/-- The method `Params.QueryString` of `params.go`: each `if` appends to the string builder,
the result is the builder contents without one leading `&`. -/
def Params.QueryString (p : Params) : GoString :=
  let sb : GoString := []
  let sb := if p.Page > 0 then sb ++ (ascii "&page=" ++ formatInt p.Page) else sb
  let sb := if p.PerPage > 0 then sb ++ (ascii "&perPage=" ++ formatInt p.PerPage) else sb
  let sb := if p.Sort' ≠ [] then sb ++ (ascii "&sort=" ++ p.Sort') else sb
  let sb := if p.Filter ≠ [] then sb ++ (ascii "&filter=" ++ QueryEscape p.Filter) else sb
  let sb := if p.Expand ≠ [] then sb ++ (ascii "&expand=" ++ p.Expand) else sb
  let sb := if p.Fields ≠ [] then sb ++ (ascii "&fields=" ++ p.Expand) else sb
  let sb := if p.SkipTotal then sb ++ ascii "&skipTotal=true" else sb
  TrimPrefix sb (ascii "&")

/-- Whether `needle` occurs in `s` as a contiguous substring (Go `strings.Contains`). -/
def Contains : GoString → GoString → Bool
  | [], needle => needle.isEmpty
  | c :: s, needle => HasPrefix (c :: s) needle || Contains s needle

/-- One `key=value` pair, present when its condition holds. -/
def pairIf (c : Bool) (key value : GoString) : List GoString :=
  if c then [key ++ 61 :: value] else []

/-- The pairs of a query string in the fixed order page, perPage, sort, filter, expand,
fields, skipTotal, each present exactly when its condition holds; the values are the
ones `QueryString` writes. -/
def queryPairs (p : Params) : List GoString :=
  pairIf (decide (p.Page > 0)) (ascii "page") (formatInt p.Page) ++
  pairIf (decide (p.PerPage > 0)) (ascii "perPage") (formatInt p.PerPage) ++
  pairIf (decide (p.Sort' ≠ [])) (ascii "sort") p.Sort' ++
  pairIf (decide (p.Filter ≠ [])) (ascii "filter") (QueryEscape p.Filter) ++
  pairIf (decide (p.Expand ≠ [])) (ascii "expand") p.Expand ++
  pairIf (decide (p.Fields ≠ [])) (ascii "fields") p.Expand ++
  pairIf p.SkipTotal (ascii "skipTotal") (ascii "true")

/-- The elements of `l` joined by `&`. -/
def joinAmp : List GoString → GoString
  | [] => []
  | [x] => x
  | x :: y :: l => x ++ 38 :: joinAmp (y :: l)

/-- The builder contents for a list of pairs: every pair preceded by `&`. -/
def ampConcat : List GoString → GoString
  | [] => []
  | x :: l => 38 :: x ++ ampConcat l

/-! ## Machine integers and time -/

/-- The value of an integer stored in a Go `int` / `int64`: two's-complement wrap-around. -/
def wrapInt64 (x : Int) : Int := (x + 2 ^ 63) % 2 ^ 64 - 2 ^ 63

/-- The integer fits a Go `int` / `int64`. -/
def IsInt64 (x : Int) : Prop := -(2 ^ 63) ≤ x ∧ x < 2 ^ 63

/-- A wall-clock instant of Go `time.Time`, in nanoseconds since the Unix epoch (the times
compared by the package carry no monotonic reading on the `Expiration` side, so `Before`
compares wall-clock instants). -/
structure Time where
  unixNano : Int
  deriving DecidableEq, Repr

/-- Go `time.Second`, a duration in nanoseconds. -/
def Second : Int := 1000000000

/-- Go `Time.Add`. -/
def Time.Add (t : Time) (d : Int) : Time := ⟨t.unixNano + d⟩

/-- Go `Time.Before`. -/
def Time.Before (t u : Time) : Bool := decide (t.unixNano < u.unixNano)

/-- The constant `unixToInternal` of package `time`: the seconds from January 1, year 1 to
the Unix epoch. -/
def unixToInternal : Int := 62135596800

/-- Go `time.Unix(sec, nsec)`: `nsec` is brought into `[0, 1e9)`, carrying into `sec`, and
the time stores the 64-bit count of seconds since year 1, `sec + unixToInternal`, which wraps
around for `sec` above `2^63 - 1 - unixToInternal`. The result is the instant that stored
count denotes. -/
def Unix (sec nsec : Int) : Time :=
  let n := if nsec < 0 ∨ nsec ≥ 1000000000 then Int.tdiv nsec 1000000000 else 0
  let sec1 := wrapInt64 (sec + n)
  let nsec1 := wrapInt64 (nsec - wrapInt64 (n * 1000000000))
  let sec2 := if nsec1 < 0 then wrapInt64 (sec1 - 1) else sec1
  let nsec2 := if nsec1 < 0 then nsec1 + 1000000000 else nsec1
  ⟨(wrapInt64 (sec2 + unixToInternal) - unixToInternal) * Second + nsec2⟩

/-- Go `time.Time{}`: January 1, year 1, 00:00:00 UTC, the stored count of seconds zero. -/
def zeroTime : Time := ⟨-unixToInternal * Second⟩

/-! ## models.go -/

/-- The struct `User` of `models.go`. -/
structure User where
  ID : GoString := []
  CollectionID : GoString := []
  CollectionName : GoString := []
  Username : GoString := []
  Verified : Bool := false
  EmailVisibility : Bool := false
  Email : GoString := []
  Created : GoString := []
  Updated : GoString := []
  Name : GoString := []
  Avatar : GoString := []
  deriving DecidableEq, Repr

/-- The generic struct `SearchResults[T]` of `models.go`. -/
structure SearchResults (T : Type) where
  Page : Int
  PerPage : Int
  TotalPages : Int
  TotalItems : Int
  Items : List T

/-- The method `SearchResults.PrevPage` of `models.go`. -/
def SearchResults.PrevPage {T : Type} (s : SearchResults T) : Int :=
  if s.Page > 1 then wrapInt64 (s.Page - 1) else -1

/-- The method `SearchResults.NextPage` of `models.go`. -/
def SearchResults.NextPage {T : Type} (s : SearchResults T) : Int :=
  if s.Page < s.TotalPages then wrapInt64 (s.Page + 1) else -1

/-- The struct `Token` of `models.go`. -/
structure Token where
  Token : GoString := []
  Expiration : Time := zeroTime
  User : User := {}
  deriving DecidableEq, Repr

/-- The method `Token.IsExpired` of `models.go`; `now` is the value of `time.Now()`. -/
def Token.IsExpired (now : Time) (s : Pbclient.Token) : Bool :=
  let limit := now.Add (Second * -30)
  s.Expiration.Before limit

/-! ## Errors and `unmarshalPB` -/

/-- Go error values produced on the modelled paths. -/
inductive Error where
  /-- Built by `errors.New(msg)`. -/
  | new (msg : String)
  /-- Built by `fmt.Errorf(msg + ": %w", cause)`. -/
  | wrap (msg : String) (cause : Error)
  /-- The `base64.CorruptInputError` at an input offset. -/
  | corruptInput (offset : Nat)
  /-- The `json.SyntaxError`. -/
  | jsonSyntax
  /-- The `json.UnmarshalTypeError` for a struct field (empty for the top-level value). -/
  | jsonType (field : String)
  deriving DecidableEq, Repr

/-- The kinds of Go's `reflect.Kind`. -/
inductive Kind where
  | Invalid | Bool | Int | Int8 | Int16 | Int32 | Int64 | Uint | Uint8 | Uint16 | Uint32
  | Uint64 | Uintptr | Float32 | Float64 | Complex64 | Complex128 | Array | Chan | Func
  | Interface | Map | Ptr | Slice | String | Struct | UnsafePointer
  deriving DecidableEq, Repr

/-- An `interface{}` argument: `nil`, or a value of a type of kind `kind`. For a pointer,
`val` is the pointee, which a decoder may overwrite; for any other kind it is the value. -/
inductive Output (α : Type) where
  | nil
  | value (kind : Kind) (val : α)

/-- The function `unmarshalPB` of `pbclient.go`. The reader is the list of bytes not yet
consumed; `decode r v` stands for `json.NewDecoder(r).Decode(output)` on a pointer to `v` and
returns the bytes left unread, the pointee after decoding and the error. The result is the
reader after the call, the output after the call and the returned error. -/
def unmarshalPB {α : Type} (decode : GoString → α → GoString × α × Option Error)
    (r : GoString) (output : Output α) : GoString × Output α × Option Error :=
  match output with
  | Output.nil => (r, Output.nil, none)
  | Output.value kind v =>
    if kind ≠ Kind.Ptr then
      (r, Output.value kind v, some (Error.new "output must be a pointer"))
    else
      match decode r v with
      | (r', v', some err) => (r', Output.value kind v', some err)
      | (r', v', none) => (r', Output.value kind v', none)

/-! ## unicode/utf8 -/

/-- Go `utf8.RuneError`, the replacement character U+FFFD. -/
def RuneError : Nat := 0xFFFD

/-- The table `first` of `unicode/utf8` for a lead byte at or above `0x80`: the length of the
sequence and the accepted range of the second byte, `none` for an invalid lead byte. -/
def firstInfo (p0 : Nat) : Option (Nat × Nat × Nat) :=
  if 0xC2 ≤ p0 ∧ p0 ≤ 0xDF then some (2, 0x80, 0xBF)
  else if p0 = 0xE0 then some (3, 0xA0, 0xBF)
  else if 0xE1 ≤ p0 ∧ p0 ≤ 0xEC then some (3, 0x80, 0xBF)
  else if p0 = 0xED then some (3, 0x80, 0x9F)
  else if 0xEE ≤ p0 ∧ p0 ≤ 0xEF then some (3, 0x80, 0xBF)
  else if p0 = 0xF0 then some (4, 0x90, 0xBF)
  else if 0xF1 ≤ p0 ∧ p0 ≤ 0xF3 then some (4, 0x80, 0xBF)
  else if p0 = 0xF4 then some (4, 0x80, 0x8F)
  else none

/-- Go `utf8.DecodeRune`: the first rune of `p` and its width in bytes; an invalid or
truncated sequence gives `(RuneError, 1)`, the empty input `(RuneError, 0)`. -/
def DecodeRune (p : GoString) : Nat × Nat :=
  match p with
  | [] => (RuneError, 0)
  | p0 :: rest =>
    if p0 < 0x80 then (p0, 1)
    else
      match firstInfo p0 with
      | none => (RuneError, 1)
      | some (sz, lo, hi) =>
        if rest.length + 1 < sz then (RuneError, 1)
        else
          let b1 := rest.getD 0 0
          if b1 < lo ∨ hi < b1 then (RuneError, 1)
          else if sz ≤ 2 then ((p0 % 32) * 64 + b1 % 64, 2)
          else
            let b2 := rest.getD 1 0
            if b2 < 0x80 ∨ 0xBF < b2 then (RuneError, 1)
            else if sz ≤ 3 then ((p0 % 16) * 4096 + (b1 % 64) * 64 + b2 % 64, 3)
            else
              let b3 := rest.getD 2 0
              if b3 < 0x80 ∨ 0xBF < b3 then (RuneError, 1)
              else ((p0 % 8) * 262144 + (b1 % 64) * 4096 + (b2 % 64) * 64 + b3 % 64, 4)

/-! ## regexp: the pattern `pbTimeRegex` and `ReplaceAllFunc` -/

/-- One element of a regular expression that consumes one rune. -/
inductive Atom where
  /-- A literal ASCII character. -/
  | lit (c : Nat)
  /-- The class `\d`, the ASCII digits. -/
  | digit
  /-- The unescaped `.`: any rune except the newline. -/
  | anyNotNL
  deriving DecidableEq, Repr

/-- The number of bytes the atom consumes at the start of `s`, `none` when it does not match
there. The input is read rune by rune as by the `step` method of the byte input of `regexp`. -/
def Atom.step (a : Atom) (s : GoString) : Option Nat :=
  match s with
  | [] => none
  | c :: _ =>
    match a with
    | Atom.lit d => if c = d then some 1 else none
    | Atom.digit => if 48 ≤ c ∧ c ≤ 57 then some 1 else none
    | Atom.anyNotNL =>
      let rw := DecodeRune s
      if rw.1 ≠ 10 then some rw.2 else none

/-- The number of bytes a sequence of atoms consumes at the start of `s`. -/
def matchSeq : List Atom → GoString → Option Nat
  | [], _ => some 0
  | a :: as, s =>
    match a.step s with
    | none => none
    | some w =>
      match matchSeq as (s.drop w) with
      | none => none
      | some n => some (w + n)

/-- The part `"\d{4}-\d{2}-\d{2} \d{2}:\d{2}:\d{2}` of `pbTimeRegex`. -/
def pbTimeHead : List Atom :=
  [Atom.lit 34, Atom.digit, Atom.digit, Atom.digit, Atom.digit, Atom.lit 45,
   Atom.digit, Atom.digit, Atom.lit 45, Atom.digit, Atom.digit, Atom.lit 32,
   Atom.digit, Atom.digit, Atom.lit 58, Atom.digit, Atom.digit, Atom.lit 58,
   Atom.digit, Atom.digit]

/-- The part `Z"` of `pbTimeRegex`. -/
def pbTimeTail : List Atom := [Atom.lit 90, Atom.lit 34]

/-- The constant `pbTimeRegex` of `helpers.go`,
`"\d{4}-\d{2}-\d{2} \d{2}:\d{2}:\d{2}(.\d{1,3})?Z"`, as the list of the sequences it
stands for, in the order of preference of Go's leftmost-first matching: the greedy optional
group `(.\d{1,3})?` taken with three, two, one digit, then left out. -/
def pbTimeRegex : List (List Atom) :=
  [pbTimeHead ++ [Atom.anyNotNL, Atom.digit, Atom.digit, Atom.digit] ++ pbTimeTail,
   pbTimeHead ++ [Atom.anyNotNL, Atom.digit, Atom.digit] ++ pbTimeTail,
   pbTimeHead ++ [Atom.anyNotNL, Atom.digit] ++ pbTimeTail,
   pbTimeHead ++ pbTimeTail]

/-- The length of the match of the expression anchored at the start of `s`: the first
alternative, in order of preference, that matches. -/
def matchAt (re : List (List Atom)) (s : GoString) : Option Nat :=
  re.findSome? fun alt => matchSeq alt s

/-- The loop of Go `Regexp.ReplaceAllFunc` for an expression that matches no empty string:
at each position the leftmost match is replaced by `repl` of the matched bytes and the scan
resumes after it; a byte at which no match starts is copied. `fuel` bounds the number of
iterations. -/
def replaceAllLoop (re : List (List Atom)) (repl : GoString → GoString) :
    Nat → GoString → GoString
  | 0, s => s
  | _ + 1, [] => []
  | fuel + 1, c :: s =>
    match matchAt re (c :: s) with
    | some n => repl ((c :: s).take n) ++ replaceAllLoop re repl fuel ((c :: s).drop n)
    | none => c :: replaceAllLoop re repl fuel s

/-- Go `Regexp.ReplaceAllFunc(b, repl)`; one iteration per input byte suffices. -/
def ReplaceAllFunc (re : List (List Atom)) (b : GoString) (repl : GoString → GoString) :
    GoString :=
  replaceAllLoop re repl (b.length + 1) b

/-- Go `bytes.Replace(s, old, new, 1)` for one-byte `old` and `new`: the first occurrence of
`old` is replaced. -/
def bytesReplaceFirst (old new : Nat) : GoString → GoString
  | [] => []
  | c :: s => if c = old then new :: s else c :: bytesReplaceFirst old new s

/-! ## helpers.go -/

/-- The function `parseFromPB` of `helpers.go`. -/
def parseFromPB (b : GoString) : GoString :=
  ReplaceAllFunc pbTimeRegex b fun m => bytesReplaceFirst 32 84 m

/-- The function `parseToPB` of `helpers.go`. -/
def parseToPB (b : GoString) : GoString := b

/-- Whether an atom other than `.` accepts the byte read at a position (`none` past the end
of the input). -/
def singleOk (a : Atom) (o : Option Nat) : Bool :=
  match a, o with
  | Atom.lit d, some c => decide (c = d)
  | Atom.digit, some c => decide (48 ≤ c ∧ c ≤ 57)
  | _, _ => false

/-- The byte at position `i` of `s` is an ASCII digit. -/
def digitAt (s : GoString) (i : Nat) : Prop := ∃ c, s[i]? = some c ∧ 48 ≤ c ∧ c ≤ 57

/-- The bytes of `s` follow `"\d{4}-\d{2}-\d{2} \d{2}:\d{2}:\d{2}`. -/
def HeadShape (s : GoString) : Prop :=
  ∀ i (h : i < pbTimeHead.length), singleOk (pbTimeHead.get ⟨i, h⟩) s[i]? = true

/-- The bytes of `r` follow `.\d{k}Z"`, the rune matched by `.` being `w` bytes wide. -/
def GroupShape (r : GoString) (w k : Nat) : Prop :=
  r ≠ [] ∧ (DecodeRune r).1 ≠ 10 ∧ (DecodeRune r).2 = w ∧ (∀ i, i < k → digitAt r (w + i)) ∧
    r[w + k]? = some 90 ∧ r[w + k + 1]? = some 34

/-- The first `n` bytes of `s` are an occurrence of `pbTimeRegex`. -/
def PbTimeShape (s : GoString) (n : Nat) : Prop :=
  HeadShape s ∧
  ((n = 22 ∧ s[20]? = some 90 ∧ s[21]? = some 34) ∨
   (∃ w k, 1 ≤ k ∧ k ≤ 3 ∧ n = 20 + w + k + 2 ∧ GroupShape (s.drop 20) w k))

/-- No occurrence of `pbTimeRegex` in `s` starts at the closing quote of another one. -/
def NoSharedQuote (s : GoString) : Prop :=
  ∀ i n, PbTimeShape (s.drop i) n → ∀ m, ¬ PbTimeShape (s.drop (i + n - 1)) m

/-! ## strings, strconv -/

/-- Go `strings.Split(s, sep)` for a one-byte separator: the segments between the
occurrences of `sep`; a string without separator gives one segment. -/
def Split (s : GoString) (sep : Nat) : List GoString :=
  match s with
  | [] => [[]]
  | c :: s =>
    if c = sep then [] :: Split s sep
    else
      match Split s sep with
      | [] => [[c]]
      | seg :: segs => (c :: seg) :: segs

/-- The value of a string of decimal digits. -/
def decimalValue (ds : GoString) : Nat := ds.foldl (fun acc c => acc * 10 + (c - 48)) 0

/-- Whether the byte is an ASCII digit. -/
def isDigit (c : Nat) : Bool := decide (48 ≤ c ∧ c ≤ 57)

/-- Go `strconv.ParseInt(s, 10, 64)`: an optional sign and at least one decimal digit, the
value within the signed 64-bit range; `none` stands for the returned error. -/
def ParseInt (s : GoString) : Option Int :=
  match s with
  | [] => none
  | c :: rest =>
    let neg := c = 45
    let ds := if c = 43 ∨ c = 45 then rest else s
    if ds = [] ∨ ¬ ds.all isDigit then none
    else
      let un := decimalValue ds
      if ¬ neg ∧ un ≥ 2 ^ 63 then none
      else if neg ∧ un > 2 ^ 63 then none
      else some (if neg then -(un : Int) else (un : Int))

/-! ## encoding/base64: `RawURLEncoding` -/

/-- The URL-safe alphabet of `encoding/base64`. -/
def encodeURL : GoString :=
  ascii "ABCDEFGHIJKLMNOPQRSTUVWXYZabcdefghijklmnopqrstuvwxyz0123456789-_"

/-- The table `decodeMap` of the URL encoding: the index of a byte in the alphabet. -/
def decodeMap (c : Nat) : Option Nat := encodeURL.indexOf? c

/-- The loop of Go `Encoding.Decode` without padding and not strict. `si` is the offset of
the next input byte, `dbuf` the 6-bit values of the quantum being read. Line breaks are
skipped; a byte outside the alphabet, or a final quantum of one character, is a
`CorruptInputError`. The result is the decoded bytes and the error. -/
def decodeQuanta : GoString → Nat → List Nat → GoString × Option Error
  | [], si, dbuf =>
    match dbuf with
    | [_] => ([], some (Error.corruptInput (si - 1)))
    | [a, b] => ([((a <<< 18 ||| b <<< 12) >>> 16) % 256], none)
    | [a, b, c] =>
      let val := a <<< 18 ||| b <<< 12 ||| c <<< 6
      ([(val >>> 16) % 256, (val >>> 8) % 256], none)
    | _ => ([], none)
  | c :: s, si, dbuf =>
    match decodeMap c with
    | some v =>
      match dbuf with
      | [a, b, d] =>
        let val := a <<< 18 ||| b <<< 12 ||| d <<< 6 ||| v
        let r := decodeQuanta s (si + 1) []
        ((val >>> 16) % 256 :: (val >>> 8) % 256 :: val % 256 :: r.1, r.2)
      | _ => decodeQuanta s (si + 1) (dbuf ++ [v])
    | none =>
      if c = 10 ∨ c = 13 then decodeQuanta s (si + 1) dbuf
      else ([], some (Error.corruptInput si))

/-- Go `base64.RawURLEncoding.DecodeString`. -/
def DecodeString (s : GoString) : GoString × Option Error := decodeQuanta s 0 []

/-- Go `base64.RawURLEncoding.EncodeToString`: three bytes give four characters, a final
group of one or two bytes gives two or three characters, without padding. -/
def EncodeToString : GoString → GoString
  | [] => []
  | [a] =>
    let val := a <<< 16
    [encodeURL.getD (val >>> 18 &&& 0x3F) 0, encodeURL.getD (val >>> 12 &&& 0x3F) 0]
  | [a, b] =>
    let val := a <<< 16 ||| b <<< 8
    [encodeURL.getD (val >>> 18 &&& 0x3F) 0, encodeURL.getD (val >>> 12 &&& 0x3F) 0,
     encodeURL.getD (val >>> 6 &&& 0x3F) 0]
  | a :: b :: c :: rest =>
    let val := a <<< 16 ||| b <<< 8 ||| c
    encodeURL.getD (val >>> 18 &&& 0x3F) 0 :: encodeURL.getD (val >>> 12 &&& 0x3F) 0 ::
      encodeURL.getD (val >>> 6 &&& 0x3F) 0 :: encodeURL.getD (val &&& 0x3F) 0 ::
      EncodeToString rest

/-! ## encoding/json: syntax -/

/-- The summary of a JSON value: its kind, with the literal of a number and the raw
contents (between the quotes) of a string. -/
inductive JValue where
  | null
  | bool
  | number (lit : GoString)
  | string (raw : GoString)
  | array
  | object
  deriving DecidableEq, Repr

/-- JSON white space: space, tab, carriage return, line feed. -/
def isSpace (c : Nat) : Bool := decide (c = 32 ∨ c = 9 ∨ c = 13 ∨ c = 10)

/-- The input without its leading white space. -/
def skipSpace : GoString → GoString
  | [] => []
  | c :: s => if isSpace c then skipSpace s else c :: s

/-- Whether the byte is a hexadecimal digit. -/
def isHex (c : Nat) : Bool :=
  decide ((48 ≤ c ∧ c ≤ 57) ∨ (97 ≤ c ∧ c ≤ 102) ∨ (65 ≤ c ∧ c ≤ 70))

/-- The states of the scanner of `encoding/json` inside a string: plain contents, after a
backslash, and inside a `\u` escape with `k + 1` hexadecimal digits still to come. -/
inductive StringState where
  | plain
  | esc
  | hex (k : Nat)
  deriving DecidableEq, Repr

/-- The scanner inside a JSON string: the raw contents up to the closing quote and the rest
of the input. Control characters and invalid escapes are syntax errors. -/
def scanStringFrom : StringState → GoString → Option (GoString × GoString)
  | _, [] => none
  | StringState.plain, c :: s =>
    if c = 34 then some ([], s)
    else if c = 92 then (scanStringFrom StringState.esc s).map fun p => (c :: p.1, p.2)
    else if c < 32 then none
    else (scanStringFrom StringState.plain s).map fun p => (c :: p.1, p.2)
  | StringState.esc, c :: s =>
    if c = 117 then (scanStringFrom (StringState.hex 3) s).map fun p => (c :: p.1, p.2)
    else if c = 98 ∨ c = 102 ∨ c = 110 ∨ c = 114 ∨ c = 116 ∨ c = 92 ∨ c = 47 ∨ c = 34 then
      (scanStringFrom StringState.plain s).map fun p => (c :: p.1, p.2)
    else none
  | StringState.hex k, c :: s =>
    if isHex c then
      match k with
      | 0 => (scanStringFrom StringState.plain s).map fun p => (c :: p.1, p.2)
      | k + 1 => (scanStringFrom (StringState.hex k) s).map fun p => (c :: p.1, p.2)
    else none

/-- A JSON string after its opening quote. -/
def scanString (s : GoString) : Option (GoString × GoString) :=
  scanStringFrom StringState.plain s

/-- The leading digits of the input and the rest. -/
def spanDigits : GoString → GoString × GoString
  | [] => ([], [])
  | c :: s =>
    if isDigit c then ((c :: (spanDigits s).1), (spanDigits s).2) else ([], c :: s)

/-- The integer part of a JSON number: `0`, or a non-zero digit followed by digits. -/
def scanIntPart : GoString → Option (GoString × GoString)
  | [] => none
  | c :: s =>
    if c = 48 then some ([48], s)
    else if 49 ≤ c ∧ c ≤ 57 then some (c :: (spanDigits s).1, (spanDigits s).2)
    else none

/-- The optional fraction of a JSON number: `.` and at least one digit. -/
def scanFrac (s : GoString) : Option (GoString × GoString) :=
  match s with
  | 46 :: s1 =>
    if (spanDigits s1).1 = [] then none else some (46 :: (spanDigits s1).1, (spanDigits s1).2)
  | _ => some ([], s)

/-- The optional exponent of a JSON number: `e` or `E`, an optional sign, at least one
digit. -/
def scanExp (s : GoString) : Option (GoString × GoString) :=
  match s with
  | [] => some ([], [])
  | c :: s1 =>
    if c = 101 ∨ c = 69 then
      match s1 with
      | [] => none
      | d :: s2 =>
        if d = 43 ∨ d = 45 then
          if (spanDigits s2).1 = [] then none
          else some (c :: d :: (spanDigits s2).1, (spanDigits s2).2)
        else if (spanDigits s1).1 = [] then none
        else some (c :: (spanDigits s1).1, (spanDigits s1).2)
    else some ([], c :: s1)

/-- A JSON number: its literal and the rest of the input. -/
def scanNumber (s : GoString) : Option (GoString × GoString) :=
  let sign : GoString := if s.head? = some 45 then [45] else []
  let s0 := if s.head? = some 45 then s.tail else s
  match scanIntPart s0 with
  | none => none
  | some (ip, s1) =>
    match scanFrac s1 with
    | none => none
    | some (fp, s2) =>
      match scanExp s2 with
      | none => none
      | some (ep, s3) => some (sign ++ ip ++ fp ++ ep, s3)

/-- The constant `maxNestingDepth` of `encoding/json`. -/
def maxNestingDepth : Nat := 10000

mutual
/-- A JSON value at the start of the input (white space already skipped): its summary and
the rest of the input, `none` for a syntax error. `depth` is the number of open objects and
arrays; `fuel` bounds the recursion. -/
def parseValue : Nat → Nat → GoString → Option (JValue × GoString)
  | 0, _, _ => none
  | fuel + 1, depth, s =>
    match s with
    | [] => none
    | c :: rest =>
      if c = 123 then
        if depth ≥ maxNestingDepth then none
        else
          match skipSpace rest with
          | 125 :: r => some (JValue.object, r)
          | r =>
            match parseMembers fuel (depth + 1) r with
            | none => none
            | some (_, r') => some (JValue.object, r')
      else if c = 91 then
        if depth ≥ maxNestingDepth then none
        else
          match skipSpace rest with
          | 93 :: r => some (JValue.array, r)
          | r =>
            match parseElements fuel (depth + 1) r with
            | none => none
            | some r' => some (JValue.array, r')
      else if c = 34 then
        match scanString rest with
        | none => none
        | some (raw, r) => some (JValue.string raw, r)
      else if c = 45 ∨ isDigit c then
        match scanNumber s with
        | none => none
        | some (lit, r) => some (JValue.number lit, r)
      else if HasPrefix s (ascii "true") then some (JValue.bool, s.drop 4)
      else if HasPrefix s (ascii "false") then some (JValue.bool, s.drop 5)
      else if HasPrefix s (ascii "null") then some (JValue.null, s.drop 4)
      else none
/-- The members of a JSON object up to and including the closing brace: the raw keys with
the summaries of their values, and the rest of the input. -/
def parseMembers : Nat → Nat → GoString → Option (List (GoString × JValue) × GoString)
  | 0, _, _ => none
  | fuel + 1, depth, s =>
    match s with
    | 34 :: rest =>
      match scanString rest with
      | none => none
      | some (key, r1) =>
        match skipSpace r1 with
        | 58 :: r2 =>
          match parseValue fuel depth (skipSpace r2) with
          | none => none
          | some (v, r3) =>
            match skipSpace r3 with
            | 44 :: r4 =>
              match parseMembers fuel depth (skipSpace r4) with
              | none => none
              | some (ms, r5) => some ((key, v) :: ms, r5)
            | 125 :: r4 => some ([(key, v)], r4)
            | _ => none
        | _ => none
    | _ => none
/-- The elements of a JSON array up to and including the closing bracket: the rest of the
input. -/
def parseElements : Nat → Nat → GoString → Option GoString
  | 0, _, _ => none
  | fuel + 1, depth, s =>
    match parseValue fuel depth s with
    | none => none
    | some (_, r1) =>
      match skipSpace r1 with
      | 44 :: r2 => parseElements fuel depth (skipSpace r2)
      | 93 :: r2 => some r2
      | _ => none
end

/-- A whole JSON text: an object with its members, or another value. -/
inductive JTop where
  | object (members : List (GoString × JValue))
  | other (v : JValue)
  deriving DecidableEq, Repr

/-- The JSON text `data`, surrounded by optional white space; `none` for a syntax error
(the check `checkValid` of `json.Unmarshal`). -/
def parseTop (data : GoString) : Option JTop :=
  let fuel := data.length + 1
  match skipSpace data with
  | 123 :: rest =>
    match skipSpace rest with
    | 125 :: r => if skipSpace r = [] then some (JTop.object []) else none
    | r =>
      match parseMembers fuel 1 r with
      | none => none
      | some (ms, r') => if skipSpace r' = [] then some (JTop.object ms) else none
  | s =>
    match parseValue fuel 0 s with
    | none => none
    | some (v, r) => if skipSpace r = [] then some (JTop.other v) else none

/-! ## encoding/json: decoding into `jwt.StandardClaims` -/

/-- The value of a hexadecimal digit. -/
def hexValue (c : Nat) : Nat :=
  if 48 ≤ c ∧ c ≤ 57 then c - 48
  else if 97 ≤ c ∧ c ≤ 102 then c - 87
  else c - 55

/-- The function `getu4` of `encoding/json`: the code unit of a leading `\uXXXX` escape. -/
def getu4 (s : GoString) : Option Nat :=
  match s with
  | 92 :: 117 :: h1 :: h2 :: h3 :: h4 :: _ =>
    if isHex h1 && isHex h2 && isHex h3 && isHex h4 then
      some (hexValue h1 * 4096 + hexValue h2 * 256 + hexValue h3 * 16 + hexValue h4)
    else none
  | _ => none

/-- The character denoted by a one-letter escape. -/
def escapeChar (e : Nat) : Nat :=
  if e = 98 then 8 else if e = 102 then 12 else if e = 110 then 10 else if e = 114 then 13
  else if e = 116 then 9 else e

/-- The function `unquote` of `encoding/json` on the raw contents of a valid string, as the
list of the runes of the result: escapes are resolved, surrogate pairs combined, a lone
surrogate and an invalid UTF-8 byte become U+FFFD. -/
def unquoteRunes : Nat → GoString → List Nat
  | 0, _ => []
  | _ + 1, [] => []
  | fuel + 1, c :: s =>
    if c = 92 then
      match s with
      | [] => []
      | e :: s1 =>
        if e = 117 then
          match getu4 (c :: s) with
          | none => []
          | some rr =>
            let s2 := s1.drop 4
            if 0xD800 ≤ rr ∧ rr < 0xE000 then
              match getu4 s2 with
              | none => RuneError :: unquoteRunes fuel s2
              | some rr1 =>
                if rr < 0xDC00 ∧ 0xDC00 ≤ rr1 ∧ rr1 < 0xE000 then
                  ((rr - 0xD800) * 1024 + (rr1 - 0xDC00) + 0x10000)
                    :: unquoteRunes fuel (s2.drop 6)
                else RuneError :: unquoteRunes fuel s2
            else rr :: unquoteRunes fuel s2
        else escapeChar e :: unquoteRunes fuel s1
    else if c < 128 then c :: unquoteRunes fuel s
    else (DecodeRune (c :: s)).1 :: unquoteRunes fuel ((c :: s).drop (DecodeRune (c :: s)).2)

/-- The runes of a JSON string given by its raw contents. -/
def unquote (raw : GoString) : List Nat := unquoteRunes (raw.length + 1) raw

/-- The struct `StandardClaims` of `github.com/golang-jwt/jwt`; the string claims hold the
runes of their value. -/
structure StandardClaims where
  Audience : List Nat := []
  ExpiresAt : Int := 0
  Id : List Nat := []
  IssuedAt : Int := 0
  Issuer : List Nat := []
  NotBefore : Int := 0
  Subject : List Nat := []
  deriving DecidableEq, Repr

/-- The fields of `StandardClaims`, in declaration order. -/
inductive ClaimField where
  | aud | exp | jti | iat | iss | nbf | sub
  deriving DecidableEq, Repr

/-- The JSON name of a field (its `json` tag). -/
def ClaimField.name : ClaimField → String
  | ClaimField.aud => "aud"
  | ClaimField.exp => "exp"
  | ClaimField.jti => "jti"
  | ClaimField.iat => "iat"
  | ClaimField.iss => "iss"
  | ClaimField.nbf => "nbf"
  | ClaimField.sub => "sub"

/-- All fields, in declaration order. -/
def claimFields : List ClaimField :=
  [ClaimField.aud, ClaimField.exp, ClaimField.jti, ClaimField.iat, ClaimField.iss,
   ClaimField.nbf, ClaimField.sub]

/-- The case folding of `encoding/json` as far as it can reach an ASCII letter: lower-case
ASCII letters fold to upper case, the long s (U+017F) to `S`, the Kelvin sign (U+212A) to
`K`; every other rune folds to a rune outside ASCII and is kept. -/
def foldRune (r : Nat) : Nat :=
  if 97 ≤ r ∧ r ≤ 122 then r - 32
  else if r = 0x17F then 83
  else if r = 0x212A then 75
  else r

/-- The field a key denotes: the field with that exact name, else the field whose name
equals the key up to case folding. -/
def findField (key : List Nat) : Option ClaimField :=
  match claimFields.find? fun f => decide (key = ascii f.name) with
  | some f => some f
  | none => claimFields.find? fun f => decide (key.map foldRune = (ascii f.name).map foldRune)

/-- Storing one member of the object: an integer claim takes a number literal that
`ParseInt` accepts, a string claim takes a string, `null` leaves the field, any other value
is an `UnmarshalTypeError`; a key that denotes no field is skipped. -/
def storeMember (c : StandardClaims) (key : GoString) (v : JValue) :
    StandardClaims × Option Error :=
  match findField (unquote key) with
  | none => (c, none)
  | some f =>
    match v with
    | JValue.null => (c, none)
    | JValue.number lit =>
      match f, ParseInt lit with
      | ClaimField.exp, some n => ({ c with ExpiresAt := n }, none)
      | ClaimField.iat, some n => ({ c with IssuedAt := n }, none)
      | ClaimField.nbf, some n => ({ c with NotBefore := n }, none)
      | _, _ => (c, some (Error.jsonType f.name))
    | JValue.string raw =>
      match f with
      | ClaimField.aud => ({ c with Audience := unquote raw }, none)
      | ClaimField.jti => ({ c with Id := unquote raw }, none)
      | ClaimField.iss => ({ c with Issuer := unquote raw }, none)
      | ClaimField.sub => ({ c with Subject := unquote raw }, none)
      | _ => (c, some (Error.jsonType f.name))
    | _ => (c, some (Error.jsonType f.name))

/-- Storing the members in order; the first error is kept, decoding goes on. -/
def storeMembers (c : StandardClaims) (err : Option Error) :
    List (GoString × JValue) → StandardClaims × Option Error
  | [] => (c, err)
  | (key, v) :: ms =>
    let r := storeMember c key v
    storeMembers r.1 (if err.isSome then err else r.2) ms

/-- Go `json.Unmarshal(data, &claims)` for a zero `claims` of type `StandardClaims`: a
syntax error leaves the claims untouched; an object is stored member by member; `null`
stores nothing; any other value is an `UnmarshalTypeError`. -/
def jsonUnmarshalClaims (data : GoString) : StandardClaims × Option Error :=
  match parseTop data with
  | none => ({}, some Error.jsonSyntax)
  | some (JTop.object ms) => storeMembers {} none ms
  | some (JTop.other JValue.null) => ({}, none)
  | some (JTop.other _) => ({}, some (Error.jsonType ""))

/-! ## pbclient.go: tokens -/

/-- The function `extractExpirationDate` of `pbclient.go`: the returned time and error. -/
def extractExpirationDate (token : GoString) : Time × Option Error :=
  let parts := Split token 46
  if parts.length ≠ 3 then (zeroTime, some (Error.new "invalid token format"))
  else
    match DecodeString (parts.getD 1 []) with
    | (_, some err) => (zeroTime, some (Error.wrap "failed to decode token payload" err))
    | (payload, none) =>
      match jsonUnmarshalClaims payload with
      | (_, some err) => (zeroTime, some (Error.wrap "failed to unmarshal token claims" err))
      | (claims, none) => (Unix claims.ExpiresAt 0, none)

/-- The pointee of an output after a call, `d` for the nil output. -/
def Output.pointee {α : Type} (o : Output α) (d : α) : α :=
  match o with
  | Output.nil => d
  | Output.value _ v => v

/-- The function `parseToken` of `pbclient.go`: the returned token (`none` for the nil
pointer) and error. `decode` stands for the JSON decoding of the reader into a `Token`. -/
def parseToken (decode : GoString → Token → GoString × Token × Option Error) (r : GoString) :
    Option Token × Option Error :=
  let t : Token := {}
  match unmarshalPB decode r (Output.value Kind.Ptr t) with
  | (_, _, some err) => (none, some err)
  | (_, out, none) =>
    let t := out.pointee t
    match extractExpirationDate t.Token with
    | (_, some err) => (none, some err)
    | (expiration, none) => (some { t with Expiration := expiration }, none)

/-! ## JSON texts (RFC 8259), as the specification of what a payload is -/

/-- White space only. -/
def IsBlank (ws : GoString) : Prop := ws.all isSpace = true

/-- The raw contents of a JSON string: characters other than the quote, the backslash and
the control characters, the two-character escapes, and `\u` followed by four hexadecimal
digits. -/
inductive RawString : GoString → Prop where
  | nil : RawString []
  | plain (c : Nat) (raw : GoString) :
      32 ≤ c → c ≠ 34 → c ≠ 92 → RawString raw → RawString (c :: raw)
  | esc (e : Nat) (raw : GoString) :
      (e = 98 ∨ e = 102 ∨ e = 110 ∨ e = 114 ∨ e = 116 ∨ e = 92 ∨ e = 47 ∨ e = 34) →
      RawString raw → RawString (92 :: e :: raw)
  | uni (h1 h2 h3 h4 : Nat) (raw : GoString) :
      isHex h1 = true → isHex h2 = true → isHex h3 = true → isHex h4 = true →
      RawString raw → RawString (92 :: 117 :: h1 :: h2 :: h3 :: h4 :: raw)

/-- The integer part of a JSON number: `0`, or a non-zero digit followed by digits. -/
def IntPart (ip : GoString) : Prop :=
  ip = [48] ∨ ∃ d ds, ip = d :: ds ∧ 49 ≤ d ∧ d ≤ 57 ∧ ds.all isDigit = true

/-- The fraction of a JSON number: nothing, or `.` and at least one digit. -/
def FracPart (fp : GoString) : Prop :=
  fp = [] ∨ ∃ ds, fp = 46 :: ds ∧ ds ≠ [] ∧ ds.all isDigit = true

/-- The exponent of a JSON number: nothing, or `e` or `E`, an optional sign and at least one
digit. -/
def ExpPart (ep : GoString) : Prop :=
  ep = [] ∨ ∃ e sign ds, ep = e :: (sign ++ ds) ∧ (e = 101 ∨ e = 69) ∧
    (sign = [] ∨ sign = [43] ∨ sign = [45]) ∧ ds ≠ [] ∧ ds.all isDigit = true

/-- A JSON number literal: an optional minus sign, the integer part, the fraction, the
exponent. -/
def NumberLit (lit : GoString) : Prop :=
  ∃ sign ip fp ep, lit = sign ++ (ip ++ (fp ++ ep)) ∧ (sign = [] ∨ sign = [45]) ∧
    IntPart ip ∧ FracPart fp ∧ ExpPart ep

/-- What a JSON text stands for: a value, the members of an object up to its closing brace,
or the elements of an array up to its closing bracket. -/
inductive Syn where
  | value (v : JValue)
  | members (ms : List (GoString × JValue))
  | elements

/-- The grammar of JSON: `JsonText d text syn` says that `text` is, without white space
around it, a value with the given summary, or the members of an object followed by `}`, or
the elements of an array followed by `]`; `d` is the number of objects and arrays open
around the text, and an object or array may be opened only below `maxNestingDepth`. -/
inductive JsonText : Nat → GoString → Syn → Prop where
  | litNull (d : Nat) : JsonText d [110, 117, 108, 108] (Syn.value JValue.null)
  | litTrue (d : Nat) : JsonText d [116, 114, 117, 101] (Syn.value JValue.bool)
  | litFalse (d : Nat) : JsonText d [102, 97, 108, 115, 101] (Syn.value JValue.bool)
  | number (d : Nat) (lit : GoString) :
      NumberLit lit → JsonText d lit (Syn.value (JValue.number lit))
  | string (d : Nat) (raw : GoString) :
      RawString raw → JsonText d (34 :: (raw ++ [34])) (Syn.value (JValue.string raw))
  | emptyObject (d : Nat) (ws : GoString) :
      IsBlank ws → d < maxNestingDepth →
      JsonText d (123 :: (ws ++ [125])) (Syn.value JValue.object)
  | object (d : Nat) (ws body : GoString) (ms : List (GoString × JValue)) :
      IsBlank ws → d < maxNestingDepth → JsonText (d + 1) body (Syn.members ms) →
      JsonText d (123 :: (ws ++ body)) (Syn.value JValue.object)
  | emptyArray (d : Nat) (ws : GoString) :
      IsBlank ws → d < maxNestingDepth →
      JsonText d (91 :: (ws ++ [93])) (Syn.value JValue.array)
  | array (d : Nat) (ws body : GoString) :
      IsBlank ws → d < maxNestingDepth → JsonText (d + 1) body Syn.elements →
      JsonText d (91 :: (ws ++ body)) (Syn.value JValue.array)
  | lastMember (d : Nat) (key ws1 ws2 vt ws3 : GoString) (v : JValue) :
      RawString key → IsBlank ws1 → IsBlank ws2 → IsBlank ws3 →
      JsonText d vt (Syn.value v) →
      JsonText d (34 :: (key ++ 34 :: (ws1 ++ 58 :: (ws2 ++ (vt ++ (ws3 ++ [125]))))))
        (Syn.members [(key, v)])
  | nextMember (d : Nat) (key ws1 ws2 vt ws3 ws4 tail : GoString) (v : JValue)
      (ms : List (GoString × JValue)) :
      RawString key → IsBlank ws1 → IsBlank ws2 → IsBlank ws3 → IsBlank ws4 →
      JsonText d vt (Syn.value v) → JsonText d tail (Syn.members ms) →
      JsonText d
        (34 :: (key ++ 34 :: (ws1 ++ 58 :: (ws2 ++ (vt ++ (ws3 ++ 44 :: (ws4 ++ tail)))))))
        (Syn.members ((key, v) :: ms))
  | lastElement (d : Nat) (vt ws : GoString) (v : JValue) :
      IsBlank ws → JsonText d vt (Syn.value v) →
      JsonText d (vt ++ (ws ++ [93])) Syn.elements
  | nextElement (d : Nat) (vt ws1 ws2 tail : GoString) (v : JValue) :
      IsBlank ws1 → IsBlank ws2 → JsonText d vt (Syn.value v) →
      JsonText d tail Syn.elements →
      JsonText d (vt ++ (ws1 ++ 44 :: (ws2 ++ tail))) Syn.elements

/-- The payload is a JSON object with the members `ms`, with optional white space around
it. -/
def ObjectText (payload : GoString) (ms : List (GoString × JValue)) : Prop :=
  ∃ ws0 ws1 body ws2, IsBlank ws0 ∧ IsBlank ws1 ∧ IsBlank ws2 ∧
    payload = ws0 ++ 123 :: (ws1 ++ (body ++ ws2)) ∧
    ((ms = [] ∧ body = [125]) ∨ JsonText 1 body (Syn.members ms))

/-- The key of a member names the claim `exp`, by the key matching of `encoding/json`. -/
def NamesExp (key : GoString) : Prop := findField (unquote key) = some ClaimField.exp

/-- The member can be stored: its key names no registered claim, or its value is `null`, or
an integer of the signed 64-bit range for an integer claim, or a string for a string
claim. -/
def MemberOk (m : GoString × JValue) : Prop :=
  match findField (unquote m.1), m.2 with
  | none, _ => True
  | some _, JValue.null => True
  | some f, JValue.number lit =>
    (f = ClaimField.exp ∨ f = ClaimField.iat ∨ f = ClaimField.nbf) ∧
      ∃ k, IsInt64 k ∧ lit = formatInt k
  | some f, JValue.string _ =>
    f = ClaimField.aud ∨ f = ClaimField.jti ∨ f = ClaimField.iss ∨ f = ClaimField.sub
  | some _, _ => False

/-- What follows a value inside a JSON text: nothing, white space, a comma, a closing brace
or a closing bracket. -/
def Delimited (rest : GoString) : Prop :=
  ∀ c, rest.head? = some c → isSpace c = true ∨ c = 44 ∨ c = 125 ∨ c = 93

/-- The first byte of the text, if any, is no digit. -/
def NoDigitAhead (r : GoString) : Prop := ∀ c, r.head? = some c → isDigit c = false

/-- The parser returns what the text stands for and leaves what follows the text. -/
def ParsesAs (fuel d : Nat) (text : GoString) : Syn → Prop
  | Syn.value v =>
    ∀ rest, Delimited rest → parseValue fuel d (text ++ rest) = some (v, rest)
  | Syn.members ms => ∀ rest, parseMembers fuel d (text ++ rest) = some (ms, rest)
  | Syn.elements => ∀ rest, parseElements fuel d (text ++ rest) = some rest

/-- The first byte of a value: an opening brace, bracket or quote, a minus sign, a digit, or
the first letter of a literal. -/
def ValueStart (c : Nat) : Prop :=
  c = 123 ∨ c = 91 ∨ c = 34 ∨ c = 45 ∨ isDigit c = true ∨ c = 110 ∨ c = 116 ∨ c = 102

/-- Whether a byte may stand unescaped inside a JSON string. -/
def isPlainChar (c : Nat) : Bool := decide (32 ≤ c ∧ c ≠ 34 ∧ c ≠ 92)

/-! # Theorems -/

/-! ## Query string: proofs -/

theorem ascii_ampPage : ascii "&page=" = 38 :: (ascii "page" ++ [61]) := by decide
theorem ascii_ampPerPage : ascii "&perPage=" = 38 :: (ascii "perPage" ++ [61]) := by decide
theorem ascii_ampSort : ascii "&sort=" = 38 :: (ascii "sort" ++ [61]) := by decide
theorem ascii_ampFilter : ascii "&filter=" = 38 :: (ascii "filter" ++ [61]) := by decide
theorem ascii_ampExpand : ascii "&expand=" = 38 :: (ascii "expand" ++ [61]) := by decide
theorem ascii_ampFields : ascii "&fields=" = 38 :: (ascii "fields" ++ [61]) := by decide
theorem ascii_ampSkipTotal :
    ascii "&skipTotal=true" = 38 :: (ascii "skipTotal" ++ 61 :: ascii "true") := by decide

theorem ampConcat_append (l m : List GoString) :
    ampConcat (l ++ m) = ampConcat l ++ ampConcat m := by
  induction l with
  | nil => rfl
  | cons x l ih => simp [ampConcat, ih]

theorem trim_ampConcat (l : List GoString) :
    TrimPrefix (ampConcat l) (ascii "&") = joinAmp l := by
  have h38 : ascii "&" = [38] := by decide
  rw [h38]
  induction l with
  | nil => rfl
  | cons x l ih =>
    cases l with
    | nil => simp [ampConcat, TrimPrefix, HasPrefix, joinAmp]
    | cons y l =>
      simp only [ampConcat, TrimPrefix, HasPrefix, joinAmp] at ih ⊢
      simp at ih
      simp [ih]

theorem QueryString_eq_ampConcat (p : Params) :
    p.QueryString = TrimPrefix (ampConcat (queryPairs p)) (ascii "&") := by
  unfold Params.QueryString queryPairs
  simp only [ascii_ampPage, ascii_ampPerPage, ascii_ampSort, ascii_ampFilter, ascii_ampExpand,
    ascii_ampFields, ascii_ampSkipTotal, ampConcat_append]
  congr 1
  by_cases h1 : p.Page > 0 <;> by_cases h2 : p.PerPage > 0 <;> by_cases h3 : p.Sort' = [] <;>
  by_cases h4 : p.Filter = [] <;> by_cases h5 : p.Expand = [] <;>
  by_cases h6 : p.Fields = [] <;> cases h7 : p.SkipTotal <;>
  simp [h1, h2, h3, h4, h5, h6, h7, pairIf, ampConcat]

theorem escapeLoop_append (s t : GoString) :
    escapeLoop (s ++ t) = escapeLoop s ++ escapeLoop t := by
  induction s with
  | nil => rfl
  | cons c s ih =>
    simp only [List.cons_append, escapeLoop]
    split_ifs <;> simp [ih]

theorem shouldEscape_space : shouldEscape 32 = true := by decide

theorem escapeLoop_of_hexCount (s : GoString) (h : hexCount s = 0) :
    escapeLoop s = s.map fun c => if c = 32 then 43 else c := by
  induction s with
  | nil => rfl
  | cons c s ih =>
    unfold hexCount at h ih
    by_cases hc : c = 32
    · subst hc
      have h2 : (List.filter (fun c => shouldEscape c && c != 32) s).length = 0 := by
        simpa [List.filter_cons] using h
      simp [escapeLoop, ih h2]
    · by_cases he : shouldEscape c = true
      · simp [List.filter_cons, he, hc] at h
      · have h2 : (List.filter (fun c => shouldEscape c && c != 32) s).length = 0 := by
          simpa [List.filter_cons, he] using h
        simp [escapeLoop, hc, he, ih h2]

theorem map_of_spaceCount (s : GoString) (h : spaceCount s = 0) :
    (s.map fun c => if c = 32 then 43 else c) = s := by
  induction s with
  | nil => rfl
  | cons c s ih =>
    unfold spaceCount at h ih
    by_cases hc : c = 32
    · subst hc
      simp [List.filter_cons, shouldEscape_space] at h
    · have h2 : (List.filter (fun c => shouldEscape c && c == 32) s).length = 0 := by
        simpa [List.filter_cons, hc] using h
      simp [hc, ih h2]

theorem QueryEscape_eq_escapeLoop (s : GoString) : QueryEscape s = escapeLoop s := by
  unfold QueryEscape
  split_ifs with h1 h2
  · rw [escapeLoop_of_hexCount s h1.2, map_of_spaceCount s h1.1]
  · rw [escapeLoop_of_hexCount s h2]
  · rfl

theorem upperhex_getD_ne (i : Nat) : upperhex.getD i 0 ≠ 38 ∧ upperhex.getD i 0 ≠ 61 := by
  have hu : upperhex = [48, 49, 50, 51, 52, 53, 54, 55, 56, 57, 65, 66, 67, 68, 69, 70] := by
    decide
  rw [hu]
  by_cases h : i < 16
  · interval_cases i <;> simp
  · have : ([48, 49, 50, 51, 52, 53, 54, 55, 56, 57, 65, 66, 67, 68, 69, 70] : List Nat).getD i 0
        = 0 := by
      apply List.getD_eq_default
      simp
      omega
    rw [this]
    omega

theorem shouldEscape_amp_eq (c : Nat) (h : shouldEscape c = false) : c ≠ 38 ∧ c ≠ 61 := by
  constructor <;> rintro rfl <;> revert h <;> decide

theorem escapeLoop_no_amp_eq (s : GoString) : 38 ∉ escapeLoop s ∧ 61 ∉ escapeLoop s := by
  induction s with
  | nil => simp [escapeLoop]
  | cons c s ih =>
    unfold escapeLoop
    have h1 := upperhex_getD_ne (c / 16)
    have h2 := upperhex_getD_ne (c % 16)
    split_ifs with ha hb
    · simp [ih.1, ih.2]
    · simp only [List.mem_cons, not_or]
      exact ⟨⟨by omega, h1.1.symm, h2.1.symm, ih.1⟩, ⟨by omega, h1.2.symm, h2.2.symm, ih.2⟩⟩
    · have h3 := shouldEscape_amp_eq c (by simpa using hb)
      simp only [List.mem_cons, not_or]
      exact ⟨⟨h3.1.symm, ih.1⟩, ⟨h3.2.symm, ih.2⟩⟩

theorem pairIf_mem {c : Bool} {key value x : GoString} (h : x ∈ pairIf c key value) :
    x = key ++ 61 :: value := by
  unfold pairIf at h
  split_ifs at h <;> simp_all

theorem queryPairs_head (p : Params) (x : GoString) (h : x ∈ queryPairs p) :
    x ≠ [] ∧ x.head? ≠ some 38 := by
  have hk : ∀ key value : GoString, key.head? ≠ none → key.head? ≠ some 38 →
      (key ++ 61 :: value) ≠ [] ∧ (key ++ 61 :: value).head? ≠ some 38 := by
    intro key value h1 h2
    cases key with
    | nil => simp at h1
    | cons a key => simpa using h2
  simp only [queryPairs, List.mem_append] at h
  rcases h with (((((h | h) | h) | h) | h) | h) | h <;> rw [pairIf_mem h] <;>
    apply hk <;> decide

theorem joinAmp_head (l : List GoString) (h : ∀ x ∈ l, x ≠ [] ∧ x.head? ≠ some 38) :
    (joinAmp l = [] ↔ l = []) ∧ (joinAmp l).head? ≠ some 38 := by
  cases l with
  | nil => simp [joinAmp]
  | cons x l =>
    have hx := h x (List.mem_cons_self _ _)
    cases x with
    | nil => exact absurd rfl hx.1
    | cons a x =>
      cases l with
      | nil => simpa [joinAmp] using hx.2
      | cons y l => simpa [joinAmp] using hx.2

theorem queryPairs_eq_nil (p : Params) :
    queryPairs p = [] ↔ (¬ p.Page > 0 ∧ ¬ p.PerPage > 0 ∧ p.Sort' = [] ∧ p.Filter = [] ∧
      p.Expand = [] ∧ p.Fields = [] ∧ p.SkipTotal = false) := by
  unfold queryPairs pairIf
  by_cases h1 : p.Page > 0 <;> by_cases h2 : p.PerPage > 0 <;> by_cases h3 : p.Sort' = [] <;>
  by_cases h4 : p.Filter = [] <;> by_cases h5 : p.Expand = [] <;>
  by_cases h6 : p.Fields = [] <;> cases h7 : p.SkipTotal <;>
  simp [h1, h2, h3, h4, h5, h6, h7]

theorem QueryString_eq_joinAmp (p : Params) : p.QueryString = joinAmp (queryPairs p) := by
  rw [QueryString_eq_ampConcat, trim_ampConcat]

/-- C3: for every `Params` value the query string is the `&`-joined list of exactly the
pairs whose condition holds, in the fixed order page, perPage, sort, filter, expand, fields,
skipTotal; it is empty exactly when no condition holds, and it never starts with `&`. -/
theorem QueryString_joined_pairs (p : Params) :
    p.QueryString = joinAmp (queryPairs p) ∧
    (p.QueryString = [] ↔ (¬ p.Page > 0 ∧ ¬ p.PerPage > 0 ∧ p.Sort' = [] ∧ p.Filter = [] ∧
      p.Expand = [] ∧ p.Fields = [] ∧ p.SkipTotal = false)) ∧
    p.QueryString.head? ≠ some 38 := by
  have h : p.QueryString = joinAmp (queryPairs p) := QueryString_eq_joinAmp p
  have hj := joinAmp_head (queryPairs p) (queryPairs_head p)
  refine ⟨h, ?_, ?_⟩
  · rw [h, hj.1, queryPairs_eq_nil]
  · rw [h]
    exact hj.2

/-- C2: with `Fields` set to `id` the query string carries the value of `Expand` after
`fields=`, not the value of `Fields`: the pair `fields=id` is absent from the output. -/
theorem QueryString_fields_writes_expand :
    Params.QueryString { Fields := ascii "id", Expand := ascii "rel" }
      = ascii "expand=rel&fields=rel" ∧
    Contains (Params.QueryString { Fields := ascii "id", Expand := ascii "rel" })
      (ascii "fields=id") = false ∧
    Params.QueryString { Fields := ascii "id" } = ascii "fields=" := by
  decide

/-- C4: when `Filter` is the only field that triggers a pair, the query string is `filter=`
followed by the percent-encoded filter; it holds no `&` and exactly one `=`, and every `&`
of the filter is written `%26`. -/
theorem QueryString_filter_only (p : Params) (hF : p.Filter ≠ []) (hP : p.Page ≤ 0)
    (hPP : p.PerPage ≤ 0) (hS : p.Sort' = []) (hE : p.Expand = []) (hFi : p.Fields = [])
    (hT : p.SkipTotal = false) :
    p.QueryString = ascii "filter=" ++ QueryEscape p.Filter ∧
    38 ∉ p.QueryString ∧
    p.QueryString.count 61 = 1 ∧
    (∀ s t : GoString, p.Filter = s ++ 38 :: t →
      p.QueryString = ascii "filter=" ++ QueryEscape s ++ ascii "%26" ++ QueryEscape t) := by
  have hq : p.QueryString = ascii "filter=" ++ QueryEscape p.Filter := by
    have h1 : ¬ p.Page > 0 := by omega
    have h2 : ¬ p.PerPage > 0 := by omega
    rw [QueryString_eq_joinAmp p]
    have hk : ascii "filter=" = ascii "filter" ++ [61] := by decide
    simp [queryPairs, pairIf, h1, h2, hS, hF, hE, hFi, hT, joinAmp, hk]
  have hf : ascii "filter=" = [102, 105, 108, 116, 101, 114, 61] := by decide
  have hne := escapeLoop_no_amp_eq p.Filter
  refine ⟨hq, ?_, ?_, ?_⟩
  · rw [hq, QueryEscape_eq_escapeLoop, hf]
    simp [hne.1]
  · rw [hq, QueryEscape_eq_escapeLoop, hf, List.count_append, List.count_eq_zero_of_not_mem hne.2]
    decide
  · intro s t hst
    have h26 : escapeLoop [38] = ascii "%26" := by decide
    rw [hq, hst, QueryEscape_eq_escapeLoop, QueryEscape_eq_escapeLoop, QueryEscape_eq_escapeLoop,
      ← h26]
    have : s ++ 38 :: t = s ++ ([38] ++ t) := by simp
    rw [this, escapeLoop_append, escapeLoop_append]
    simp

/-- Witness for C4: the filter `a='x&y'` alone yields `filter=a%3D%27x%26y%27`, with no `&`
and a single `=`. -/
theorem QueryString_filter_only_witness :
    Params.QueryString { Filter := ascii "a='x&y'" } = ascii "filter=a%3D%27x%26y%27" ∧
    38 ∉ Params.QueryString { Filter := ascii "a='x&y'" } ∧
    (Params.QueryString { Filter := ascii "a='x&y'" }).count 61 = 1 :=
  have h := QueryString_filter_only { Filter := ascii "a='x&y'" } (by decide) (by decide)
    (by decide) rfl rfl rfl rfl
  ⟨h.1.trans (by decide), h.2.1, h.2.2.1⟩


/-! ## models.go: proofs -/

/-- C1: at every instant `now`, a token whose expiration is 29 seconds ahead of `now` is
reported not expired by the code, and so is a token whose expiration passed 29 seconds ago;
a token 31 seconds ahead is reported not expired as well. The limit is `now - 30s`. -/
theorem IsExpired_margin_behind_now (now : Time) (token : GoString) (user : User) :
    Token.IsExpired now ⟨token, now.Add (29 * Second), user⟩ = false ∧
    Token.IsExpired now ⟨token, now.Add (-29 * Second), user⟩ = false ∧
    Token.IsExpired now ⟨token, now.Add (31 * Second), user⟩ = false ∧
    Token.IsExpired now ⟨token, now.Add (-31 * Second), user⟩ = true := by
  simp only [Token.IsExpired, Time.Before, Time.Add, Second, decide_eq_false_iff_not,
    decide_eq_true_eq]
  omega

theorem wrapInt64_of_range (x : Int) (h : IsInt64 x) : wrapInt64 x = x := by
  unfold wrapInt64
  unfold IsInt64 at h
  omega

/-- C7: for every search result whose `Page` and `TotalPages` are Go integers, `PrevPage` is
`Page - 1` when `Page > 1` and `-1` otherwise, `NextPage` is `Page + 1` when
`Page < TotalPages` and `-1` otherwise; both depend on `Page` and `TotalPages` only. -/
theorem PrevPage_NextPage_spec {T : Type} (s : SearchResults T) (hP : IsInt64 s.Page)
    (hT : IsInt64 s.TotalPages) :
    s.PrevPage = (if s.Page > 1 then s.Page - 1 else -1) ∧
    s.NextPage = (if s.Page < s.TotalPages then s.Page + 1 else -1) ∧
    (∀ (U : Type) (s' : SearchResults U), s'.Page = s.Page → s'.TotalPages = s.TotalPages →
      s'.PrevPage = s.PrevPage ∧ s'.NextPage = s.NextPage) := by
  unfold IsInt64 at hP hT
  refine ⟨?_, ?_, ?_⟩
  · unfold SearchResults.PrevPage
    split_ifs with h
    · exact wrapInt64_of_range _ ⟨by omega, by omega⟩
    · rfl
  · unfold SearchResults.NextPage
    split_ifs with h
    · exact wrapInt64_of_range _ ⟨by omega, by omega⟩
    · rfl
  · intro U s' h1 h2
    simp [SearchResults.PrevPage, SearchResults.NextPage, h1, h2]

/-- Witness for C7: page 1 of 5 has no previous page and next page 2; page 5 of 5 has no
next page. -/
theorem PrevPage_NextPage_spec_witness :
    (SearchResults.PrevPage (⟨1, 30, 5, 150, []⟩ : SearchResults Nat) = -1 ∧
     SearchResults.NextPage (⟨1, 30, 5, 150, []⟩ : SearchResults Nat) = 2) ∧
    SearchResults.NextPage (⟨5, 30, 5, 150, [7]⟩ : SearchResults Nat) = -1 :=
  have h1 := PrevPage_NextPage_spec (⟨1, 30, 5, 150, []⟩ : SearchResults Nat)
    (by unfold IsInt64; decide) (by unfold IsInt64; decide)
  have h2 := PrevPage_NextPage_spec (⟨5, 30, 5, 150, [7]⟩ : SearchResults Nat)
    (by unfold IsInt64; decide) (by unfold IsInt64; decide)
  ⟨⟨h1.1.trans (by decide), h1.2.1.trans (by decide)⟩, h2.2.1.trans (by decide)⟩

/-! ## unmarshalPB: proofs -/

/-- C8: whatever the reader holds and whatever the decoder would do, `unmarshalPB` with a
nil output succeeds and leaves the reader untouched, and with a non-nil output that is not a
pointer it fails with `output must be a pointer`, again leaving the reader untouched. -/
theorem unmarshalPB_target_check {α : Type}
    (decode : GoString → α → GoString × α × Option Error) (r : GoString) :
    unmarshalPB decode r Output.nil = (r, Output.nil, none) ∧
    ∀ (kind : Kind) (v : α), kind ≠ Kind.Ptr →
      unmarshalPB decode r (Output.value kind v)
        = (r, Output.value kind v, some (Error.new "output must be a pointer")) := by
  refine ⟨rfl, ?_⟩
  intro kind v h
  simp [unmarshalPB, h]

/-- Witness for C8: a struct value passed by value against a body that is not JSON, with a
decoder that would consume the body and report a syntax error. -/
theorem unmarshalPB_target_check_witness :
    unmarshalPB (fun _ (v : Nat) => ([], v, some Error.jsonSyntax)) (ascii "not json")
        Output.nil = (ascii "not json", Output.nil, none) ∧
    unmarshalPB (fun _ (v : Nat) => ([], v, some Error.jsonSyntax)) (ascii "not json")
        (Output.value Kind.Struct 0)
      = (ascii "not json", Output.value Kind.Struct 0,
          some (Error.new "output must be a pointer")) :=
  have h := unmarshalPB_target_check (fun _ (v : Nat) => ([], v, some Error.jsonSyntax))
    (ascii "not json")
  ⟨h.1, h.2 Kind.Struct 0 (by decide)⟩


/-! ## Pattern matching: structure of a match -/

theorem matchSeq_cons (a : Atom) (as : List Atom) (s : GoString) :
    matchSeq (a :: as) s =
      match a.step s with
      | none => none
      | some w =>
        match matchSeq as (s.drop w) with
        | none => none
        | some n => some (w + n) := rfl

theorem matchSeq_append (as bs : List Atom) (s : GoString) :
    matchSeq (as ++ bs) s =
      match matchSeq as s with
      | none => none
      | some w => (matchSeq bs (s.drop w)).map fun n => w + n := by
  induction as generalizing s with
  | nil =>
    simp only [List.nil_append, matchSeq, List.drop_zero]
    cases matchSeq bs s <;> simp
  | cons a as ih =>
    rw [List.cons_append, matchSeq_cons, matchSeq_cons]
    cases h : a.step s with
    | none => rfl
    | some w =>
      simp only [ih]
      cases h2 : matchSeq as (List.drop w s) with
      | none => rfl
      | some n =>
        simp only [List.drop_drop]
        cases matchSeq bs (List.drop (w + n) s) <;> simp [Nat.add_assoc]

theorem step_single (a : Atom) (h : a ≠ Atom.anyNotNL) (s : GoString) :
    a.step s = if singleOk a s[0]? then some 1 else none := by
  cases s with
  | nil => cases a <;> simp [Atom.step, singleOk]
  | cons c s =>
    cases a with
    | lit d => simp [Atom.step, singleOk]
    | digit => simp [Atom.step, singleOk]
    | anyNotNL => exact absurd rfl h

theorem matchSeq_singles (as : List Atom) (hs : ∀ a ∈ as, a ≠ Atom.anyNotNL) (s : GoString)
    (n : Nat) :
    matchSeq as s = some n ↔
      n = as.length ∧ ∀ i (h : i < as.length), singleOk (as.get ⟨i, h⟩) s[i]? = true := by
  induction as generalizing s n with
  | nil =>
    simp only [matchSeq, Option.some.injEq, List.length_nil, Nat.not_lt_zero, IsEmpty.forall_iff,
      implies_true, and_true]
    exact eq_comm
  | cons a as ih =>
    have ha := hs a (List.mem_cons_self _ _)
    have has : ∀ b ∈ as, b ≠ Atom.anyNotNL := fun b hb => hs b (List.mem_cons_of_mem _ hb)
    rw [matchSeq_cons, step_single a ha]
    by_cases h0 : singleOk a s[0]? = true
    · simp only [h0, if_true]
      cases hm : matchSeq as (List.drop 1 s) with
      | none =>
        simp only [false_iff, not_and, reduceCtorEq]
        intro _ hall
        have := (ih has (List.drop 1 s) as.length).2 ⟨rfl, fun i h => by
          have := hall (i + 1) (by simp; omega)
          simpa [List.getElem?_drop, Nat.add_comm] using this⟩
        rw [hm] at this
        exact absurd this (by simp)
      | some m =>
        have := (ih has (List.drop 1 s) m).1 hm
        simp only [Option.some.injEq, List.length_cons]
        constructor
        · rintro rfl
          refine ⟨by omega, ?_⟩
          intro i h
          cases i with
          | zero => simpa using h0
          | succ i =>
            have h2 := this.2 i (by simp at h; omega)
            simpa [List.getElem?_drop, Nat.add_comm] using h2
        · rintro ⟨rfl, _⟩
          omega
    · simp only [h0, Bool.false_eq_true, if_false, false_iff, not_and, reduceCtorEq]
      intro _ hall
      have := hall 0 (by simp)
      simp at this
      exact h0 this


theorem pbTimeHead_singles : ∀ a ∈ pbTimeHead, a ≠ Atom.anyNotNL := by decide

theorem matchSeq_head_append (X : List Atom) (s : GoString) (n : Nat) :
    matchSeq (pbTimeHead ++ X) s = some n ↔
      HeadShape s ∧ ∃ m, matchSeq X (s.drop 20) = some m ∧ n = 20 + m := by
  rw [matchSeq_append]
  cases h : matchSeq pbTimeHead s with
  | none =>
    simp only [false_iff, not_and, reduceCtorEq]
    intro hh
    have := (matchSeq_singles pbTimeHead pbTimeHead_singles s pbTimeHead.length).2 ⟨rfl, hh⟩
    rw [h] at this
    exact absurd this (by simp)
  | some w =>
    have hw := (matchSeq_singles pbTimeHead pbTimeHead_singles s w).1 h
    have hw20 : w = 20 := hw.1
    subst hw20
    simp only [Option.map_eq_some']
    constructor
    · rintro ⟨m, h1, h2⟩
      exact ⟨hw.2, m, h1, h2.symm⟩
    · rintro ⟨_, m, h1, h2⟩
      exact ⟨m, h1, h2.symm⟩

theorem singles_digits_tail (k : Nat) (t : GoString) :
    (∀ i (h : i < (List.replicate k Atom.digit ++ pbTimeTail).length),
        singleOk ((List.replicate k Atom.digit ++ pbTimeTail).get ⟨i, h⟩) t[i]? = true) ↔
      (∀ i, i < k → digitAt t i) ∧ t[k]? = some 90 ∧ t[k + 1]? = some 34 := by
  have hlen : (List.replicate k Atom.digit ++ pbTimeTail).length = k + 2 := by
    simp [pbTimeTail]
  constructor
  · intro h
    refine ⟨?_, ?_, ?_⟩
    · intro i hi
      have := h i (by omega)
      rw [List.get_eq_getElem, List.getElem_append_left (by simpa using hi)] at this
      simp only [List.getElem_replicate] at this
      unfold digitAt
      cases hc : t[i]? with
      | none => simp [hc, singleOk] at this
      | some c => simpa [hc, singleOk] using this
    · have := h k (by omega)
      rw [List.get_eq_getElem, List.getElem_append_right (by simp)] at this
      cases hc : t[k]? with
      | none => simp [hc, singleOk] at this
      | some c => simpa [hc, singleOk, pbTimeTail] using this
    · have := h (k + 1) (by omega)
      rw [List.get_eq_getElem, List.getElem_append_right (by simp)] at this
      cases hc : t[k + 1]? with
      | none => simp [hc, singleOk] at this
      | some c => simpa [hc, singleOk, pbTimeTail] using this
  · rintro ⟨hd, hz, hq⟩ i hi
    rw [hlen] at hi
    rw [List.get_eq_getElem]
    by_cases h1 : i < k
    · rw [List.getElem_append_left (by simpa using h1)]
      obtain ⟨c, hc, hc2⟩ := hd i h1
      simp [hc, singleOk, hc2]
    · rw [List.getElem_append_right (by simpa using h1)]
      have : i = k ∨ i = k + 1 := by omega
      rcases this with rfl | rfl
      · simp [hz, singleOk, pbTimeTail]
      · simp [hq, singleOk, pbTimeTail]

theorem digits_tail_singles (k : Nat) :
    ∀ a ∈ List.replicate k Atom.digit ++ pbTimeTail, a ≠ Atom.anyNotNL := by
  intro a ha
  simp only [List.mem_append, List.mem_replicate, pbTimeTail, List.mem_cons,
    List.mem_singleton] at ha
  rcases ha with ⟨_, rfl⟩ | rfl | rfl | h
  · simp
  · simp
  · simp
  · simp at h

theorem matchSeq_group (k : Nat) (r : GoString) (m : Nat) :
    matchSeq (Atom.anyNotNL :: (List.replicate k Atom.digit ++ pbTimeTail)) r = some m ↔
      ∃ w, GroupShape r w k ∧ m = w + k + 2 := by
  rw [matchSeq_cons]
  cases r with
  | nil =>
    simp [Atom.step, GroupShape]
  | cons c r =>
    simp only [Atom.step]
    by_cases hnl : (DecodeRune (c :: r)).1 = 10
    · simp [hnl, GroupShape]
    · simp only [hnl, ne_eq, not_false_eq_true, if_true]
      cases hm : matchSeq (List.replicate k Atom.digit ++ pbTimeTail)
          (List.drop (DecodeRune (c :: r)).2 (c :: r)) with
      | none =>
        simp only [false_iff, not_exists, not_and, reduceCtorEq]
        intro w hg _
        obtain ⟨_, _, hw, hd, hz, hq⟩ := hg
        have := (matchSeq_singles _ (digits_tail_singles k)
          (List.drop (DecodeRune (c :: r)).2 (c :: r)) _).2
          ⟨rfl, (singles_digits_tail k _).2 ⟨fun i hi => by
            obtain ⟨d, h1, h2⟩ := hd i hi
            exact ⟨d, by rw [List.getElem?_drop, hw]; exact h1, h2⟩,
            by rw [List.getElem?_drop, hw]; exact hz,
            by rw [List.getElem?_drop, hw, ← Nat.add_assoc]; exact hq⟩⟩
        rw [hm] at this
        exact absurd this (by simp)
      | some n =>
        have h1 := (matchSeq_singles _ (digits_tail_singles k) _ n).1 hm
        have hn : n = k + 2 := by simpa [pbTimeTail] using h1.1
        have h2 := (singles_digits_tail k _).1 h1.2
        simp only [Option.some.injEq]
        constructor
        · rintro rfl
          refine ⟨(DecodeRune (c :: r)).2, ⟨by simp, hnl, rfl, ?_, ?_, ?_⟩, by omega⟩
          · intro i hi
            obtain ⟨d, h3, h4⟩ := h2.1 i hi
            exact ⟨d, by rw [List.getElem?_drop] at h3; exact h3, h4⟩
          · have := h2.2.1
            rw [List.getElem?_drop] at this
            exact this
          · have := h2.2.2
            rw [List.getElem?_drop, ← Nat.add_assoc] at this
            exact this
        · rintro ⟨w, hg, rfl⟩
          rw [← hg.2.2.1]
          omega


theorem matchSeq_tail (r : GoString) (m : Nat) :
    matchSeq pbTimeTail r = some m ↔ m = 2 ∧ r[0]? = some 90 ∧ r[1]? = some 34 := by
  have h := matchSeq_singles _ (digits_tail_singles 0) r m
  have h2 := singles_digits_tail 0 r
  simp only [List.replicate_zero, List.nil_append] at h h2
  rw [h, h2]
  simp [pbTimeTail]

theorem DecodeRune_ascii (c : Nat) (r : GoString) (h : c < 128) :
    DecodeRune (c :: r) = (c, 1) := by
  simp [DecodeRune, h]

theorem GroupShape_unique {r : GoString} {w k w' k' : Nat} (h : GroupShape r w k)
    (h' : GroupShape r w' k') : w = w' ∧ k = k' := by
  obtain ⟨_, _, hw, hd, hz, hq⟩ := h
  obtain ⟨_, _, hw', hd', hz', hq'⟩ := h'
  have hww : w = w' := by rw [← hw, ← hw']
  subst hww
  refine ⟨rfl, ?_⟩
  rcases Nat.lt_trichotomy k k' with hlt | heq | hgt
  · obtain ⟨c, h1, h2⟩ := hd' k hlt
    rw [hz] at h1
    simp at h1
    omega
  · exact heq
  · obtain ⟨c, h1, h2⟩ := hd k' hgt
    rw [hz'] at h1
    simp at h1
    omega

theorem GroupShape_not_tail {r : GoString} {w k : Nat} (h : GroupShape r w k) (hk : 1 ≤ k) :
    ¬ (r[0]? = some 90 ∧ r[1]? = some 34) := by
  rintro ⟨h0, h1⟩
  obtain ⟨_, _, hw, hd, _, _⟩ := h
  cases r with
  | nil => simp at h0
  | cons c r =>
    have hc : c = 90 := by simpa using h0
    subst hc
    rw [DecodeRune_ascii 90 r (by omega)] at hw
    obtain ⟨d, h2, h3⟩ := hd 0 (by omega)
    rw [← hw] at h2
    simp only [Nat.add_zero] at h2
    rw [h1] at h2
    simp at h2
    omega

theorem pbTimeRegex_eq :
    pbTimeRegex =
      [pbTimeHead ++ (Atom.anyNotNL :: (List.replicate 3 Atom.digit ++ pbTimeTail)),
       pbTimeHead ++ (Atom.anyNotNL :: (List.replicate 2 Atom.digit ++ pbTimeTail)),
       pbTimeHead ++ (Atom.anyNotNL :: (List.replicate 1 Atom.digit ++ pbTimeTail)),
       pbTimeHead ++ pbTimeTail] := by
  decide

theorem matchSeq_group_alt (k : Nat) (s : GoString) (m : Nat) :
    matchSeq (pbTimeHead ++ (Atom.anyNotNL :: (List.replicate k Atom.digit ++ pbTimeTail))) s
        = some m ↔
      HeadShape s ∧ ∃ w, GroupShape (s.drop 20) w k ∧ m = 20 + w + k + 2 := by
  rw [matchSeq_head_append]
  constructor
  · rintro ⟨hh, m', h1, h2⟩
    obtain ⟨w, hg, h3⟩ := (matchSeq_group k _ m').1 h1
    exact ⟨hh, w, hg, by omega⟩
  · rintro ⟨hh, w, hg, h3⟩
    exact ⟨hh, w + k + 2, (matchSeq_group k _ _).2 ⟨w, hg, rfl⟩, by omega⟩

theorem matchSeq_plain_alt (s : GoString) (m : Nat) :
    matchSeq (pbTimeHead ++ pbTimeTail) s = some m ↔
      HeadShape s ∧ m = 22 ∧ s[20]? = some 90 ∧ s[21]? = some 34 := by
  rw [matchSeq_head_append]
  constructor
  · rintro ⟨hh, m', h1, h2⟩
    obtain ⟨h3, h4, h5⟩ := (matchSeq_tail _ m').1 h1
    rw [List.getElem?_drop] at h4 h5
    exact ⟨hh, by omega, h4, h5⟩
  · rintro ⟨hh, h3, h4, h5⟩
    refine ⟨hh, 2, (matchSeq_tail _ 2).2 ⟨rfl, ?_, ?_⟩, by omega⟩
    · rw [List.getElem?_drop]; exact h4
    · rw [List.getElem?_drop]; exact h5

theorem matchSeq_group_alt_none (k : Nat) (s : GoString)
    (h : ∀ w, ¬ GroupShape (s.drop 20) w k) :
    matchSeq (pbTimeHead ++ (Atom.anyNotNL :: (List.replicate k Atom.digit ++ pbTimeTail))) s
        = none := by
  cases hm : matchSeq (pbTimeHead ++
      (Atom.anyNotNL :: (List.replicate k Atom.digit ++ pbTimeTail))) s with
  | none => rfl
  | some m =>
    obtain ⟨_, w, hg, _⟩ := (matchSeq_group_alt k s m).1 hm
    exact absurd hg (h w)

/-- The code's matcher accepts exactly the occurrences of the stated shape. -/
theorem matchAt_iff (s : GoString) (n : Nat) :
    matchAt pbTimeRegex s = some n ↔ PbTimeShape s n := by
  rw [pbTimeRegex_eq]
  simp only [matchAt, List.findSome?]
  constructor
  · intro h
    cases h3 : matchSeq (pbTimeHead ++
        (Atom.anyNotNL :: (List.replicate 3 Atom.digit ++ pbTimeTail))) s with
    | some m =>
      rw [h3] at h
      obtain ⟨hh, w, hg, hm⟩ := (matchSeq_group_alt 3 s m).1 h3
      simp only [Option.some.injEq] at h
      exact ⟨hh, Or.inr ⟨w, 3, by omega, by omega, by omega, hg⟩⟩
    | none =>
      rw [h3] at h
      cases h2 : matchSeq (pbTimeHead ++
          (Atom.anyNotNL :: (List.replicate 2 Atom.digit ++ pbTimeTail))) s with
      | some m =>
        rw [h2] at h
        obtain ⟨hh, w, hg, hm⟩ := (matchSeq_group_alt 2 s m).1 h2
        simp only [Option.some.injEq] at h
        exact ⟨hh, Or.inr ⟨w, 2, by omega, by omega, by omega, hg⟩⟩
      | none =>
        rw [h2] at h
        cases h1 : matchSeq (pbTimeHead ++
            (Atom.anyNotNL :: (List.replicate 1 Atom.digit ++ pbTimeTail))) s with
        | some m =>
          rw [h1] at h
          obtain ⟨hh, w, hg, hm⟩ := (matchSeq_group_alt 1 s m).1 h1
          simp only [Option.some.injEq] at h
          exact ⟨hh, Or.inr ⟨w, 1, by omega, by omega, by omega, hg⟩⟩
        | none =>
          rw [h1] at h
          cases h0 : matchSeq (pbTimeHead ++ pbTimeTail) s with
          | some m =>
            rw [h0] at h
            obtain ⟨hh, hm, hz, hq⟩ := (matchSeq_plain_alt s m).1 h0
            simp only [Option.some.injEq] at h
            exact ⟨hh, Or.inl ⟨by omega, hz, hq⟩⟩
          | none =>
            rw [h0] at h
            simp at h
  · rintro ⟨hh, ⟨hn, hz, hq⟩ | ⟨w, k, hk1, hk3, hn, hg⟩⟩
    · have hno : ∀ k, 1 ≤ k → ∀ w, ¬ GroupShape (s.drop 20) w k := by
        intro k hk w hg
        apply GroupShape_not_tail hg hk
        rw [List.getElem?_drop, List.getElem?_drop]
        exact ⟨hz, hq⟩
      rw [matchSeq_group_alt_none 3 s (hno 3 (by omega)),
        matchSeq_group_alt_none 2 s (hno 2 (by omega)),
        matchSeq_group_alt_none 1 s (hno 1 (by omega)),
        (matchSeq_plain_alt s 22).2 ⟨hh, rfl, hz, hq⟩, hn]
    · have hno : ∀ k', k' ≠ k → ∀ w', ¬ GroupShape (s.drop 20) w' k' := by
        intro k' hk' w' hg'
        exact hk' (GroupShape_unique hg' hg).2
      have hk : k = 1 ∨ k = 2 ∨ k = 3 := by omega
      rcases hk with rfl | rfl | rfl
      · rw [matchSeq_group_alt_none 3 s (hno 3 (by omega)),
          matchSeq_group_alt_none 2 s (hno 2 (by omega)),
          (matchSeq_group_alt 1 s n).2 ⟨hh, w, hg, hn⟩]
      · rw [matchSeq_group_alt_none 3 s (hno 3 (by omega)),
          (matchSeq_group_alt 2 s n).2 ⟨hh, w, hg, hn⟩]
      · rw [(matchSeq_group_alt 3 s n).2 ⟨hh, w, hg, hn⟩]


/-! ## Rune decoding: width and window -/

theorem firstInfo_spec {p0 sz lo hi : Nat} (h : firstInfo p0 = some (sz, lo, hi)) :
    2 ≤ sz ∧ sz ≤ 4 ∧ 128 ≤ lo ∧ 128 ≤ p0 := by
  unfold firstInfo at h
  split_ifs at h <;> simp only [Option.some.injEq, Prod.mk.injEq, reduceCtorEq] at h <;> omega

theorem DecodeRune_cons_multi (p0 : Nat) (rest : GoString) (h0 : ¬ p0 < 128) (sz lo hi : Nat)
    (hf : firstInfo p0 = some (sz, lo, hi)) :
    DecodeRune (p0 :: rest) =
      if rest.length + 1 < sz then (RuneError, 1)
      else if rest.getD 0 0 < lo ∨ hi < rest.getD 0 0 then (RuneError, 1)
      else if sz ≤ 2 then ((p0 % 32) * 64 + rest.getD 0 0 % 64, 2)
      else if rest.getD 1 0 < 0x80 ∨ 0xBF < rest.getD 1 0 then (RuneError, 1)
      else if sz ≤ 3 then ((p0 % 16) * 4096 + (rest.getD 0 0 % 64) * 64 + rest.getD 1 0 % 64, 3)
      else if rest.getD 2 0 < 0x80 ∨ 0xBF < rest.getD 2 0 then (RuneError, 1)
      else ((p0 % 8) * 262144 + (rest.getD 0 0 % 64) * 4096 + (rest.getD 1 0 % 64) * 64
        + rest.getD 2 0 % 64, 4) := by
  simp only [DecodeRune, h0, if_false, hf]

theorem DecodeRune_cons_invalid (p0 : Nat) (rest : GoString) (h0 : ¬ p0 < 128)
    (hf : firstInfo p0 = none) : DecodeRune (p0 :: rest) = (RuneError, 1) := by
  simp only [DecodeRune, h0, if_false, hf]

theorem DecodeRune_take (r : GoString) : DecodeRune r = DecodeRune (r.take 4) := by
  match r with
  | [] => rfl
  | [_] => rfl
  | [_, _] => rfl
  | [_, _, _] => rfl
  | p0 :: b1 :: b2 :: b3 :: rest =>
    simp only [List.take_succ_cons, List.take_zero]
    by_cases h0 : p0 < 128
    · rw [DecodeRune_ascii _ _ h0, DecodeRune_ascii _ _ h0]
    · cases hf : firstInfo p0 with
      | none => rw [DecodeRune_cons_invalid _ _ h0 hf, DecodeRune_cons_invalid _ _ h0 hf]
      | some x =>
        obtain ⟨sz, lo, hi⟩ := x
        have := firstInfo_spec hf
        rw [DecodeRune_cons_multi _ _ h0 _ _ _ hf, DecodeRune_cons_multi _ _ h0 _ _ _ hf]
        have h1 : ¬ ((b1 :: b2 :: b3 :: rest).length + 1 < sz) := by
          simp only [List.length_cons]; omega
        have h2 : ¬ (([b1, b2, b3] : List Nat).length + 1 < sz) := by
          simp only [List.length_cons, List.length_nil]; omega
        simp only [h1, h2, if_false]
        rfl

theorem DecodeRune_width_pos (r : GoString) (h : r ≠ []) :
    1 ≤ (DecodeRune r).2 ∧ (DecodeRune r).2 ≤ 4 := by
  cases r with
  | nil => exact absurd rfl h
  | cons p0 rest =>
    by_cases h0 : p0 < 128
    · rw [DecodeRune_ascii _ _ h0]; simp
    · cases hf : firstInfo p0 with
      | none => rw [DecodeRune_cons_invalid _ _ h0 hf]; simp
      | some x =>
        obtain ⟨sz, lo, hi⟩ := x
        rw [DecodeRune_cons_multi _ _ h0 _ _ _ hf]
        split_ifs <;> simp

theorem getD_of_lt_length (l : List Nat) (i : Nat) (h : i < l.length) :
    l[i]? = some (l.getD i 0) := by
  rw [List.getD_eq_getElem?_getD, List.getElem?_eq_getElem h]
  rfl

theorem DecodeRune_wide (r : GoString) (w : Nat) (hw : (DecodeRune r).2 = w) (h2 : 2 ≤ w) :
    ∀ i, i < w → ∃ c, r[i]? = some c ∧ 128 ≤ c := by
  cases r with
  | nil => simp [DecodeRune] at hw; omega
  | cons p0 rest =>
    by_cases h0 : p0 < 128
    · rw [DecodeRune_ascii _ _ h0] at hw; simp at hw; omega
    · cases hf : firstInfo p0 with
      | none => rw [DecodeRune_cons_invalid _ _ h0 hf] at hw; simp at hw; omega
      | some x =>
        obtain ⟨sz, lo, hi⟩ := x
        have hs := firstInfo_spec hf
        rw [DecodeRune_cons_multi _ _ h0 _ _ _ hf] at hw
        split_ifs at hw with c1 c2 c3 c4 c5 c6 <;> simp only at hw <;>
          first
          | omega
          | (intro i hi
             have hlen : w ≤ rest.length + 1 := by omega
             match i, hi with
             | 0, _ => exact ⟨p0, by simp, by omega⟩
             | 1, _ =>
               refine ⟨rest.getD 0 0, ?_, by omega⟩
               simpa using getD_of_lt_length rest 0 (by omega)
             | 2, _ =>
               refine ⟨rest.getD 1 0, ?_, by omega⟩
               simpa using getD_of_lt_length rest 1 (by omega)
             | 3, _ =>
               refine ⟨rest.getD 2 0, ?_, by omega⟩
               simpa using getD_of_lt_length rest 2 (by omega)
             | i + 4, hi => omega)


/-! ## Consequences of the shape of an occurrence -/

theorem head_byte_cases (i : Nat) (hi : i < 20) (c : Nat)
    (h : singleOk (pbTimeHead.getD i (Atom.lit 0)) (some c) = true) :
    c ≠ 84 ∧ c < 128 ∧ (c = 34 ↔ i = 0) ∧ (c = 32 ↔ i = 11) ∧
      (i ≠ 0 → i ≠ 5 → i ≠ 8 → i ≠ 11 → i ≠ 14 → i ≠ 17 → 48 ≤ c ∧ c ≤ 57) ∧
      (i = 5 → c = 45) := by
  interval_cases i <;> simp [pbTimeHead, singleOk] at h <;> omega

theorem HeadShape_byte {s : GoString} (h : HeadShape s) (i : Nat) (hi : i < 20) :
    ∃ c, s[i]? = some c ∧ singleOk (pbTimeHead.getD i (Atom.lit 0)) (some c) = true := by
  have hl : pbTimeHead.length = 20 := by decide
  have := h i (by omega)
  rw [List.get_eq_getElem] at this
  have hg : pbTimeHead.getD i (Atom.lit 0) = pbTimeHead[i] := by
    rw [List.getD_eq_getElem?_getD, List.getElem?_eq_getElem (by omega)]
    rfl
  rw [hg]
  cases hc : s[i]? with
  | none =>
    rw [hc] at this
    cases hp : pbTimeHead[i] <;> simp [hp, singleOk] at this
  | some c =>
    rw [hc] at this
    exact ⟨c, rfl, this⟩

theorem HeadShape_of_bytes {s : GoString}
    (h : ∀ i, i < 20 → ∃ c, s[i]? = some c ∧
      singleOk (pbTimeHead.getD i (Atom.lit 0)) (some c) = true) : HeadShape s := by
  intro i hi
  have hl : pbTimeHead.length = 20 := by decide
  obtain ⟨c, h1, h2⟩ := h i (by omega)
  have hg : pbTimeHead.getD i (Atom.lit 0) = pbTimeHead[i] := by
    rw [List.getD_eq_getElem?_getD, List.getElem?_eq_getElem (by omega)]
    rfl
  rw [List.get_eq_getElem, h1, ← hg]
  exact h2

theorem PbTimeShape_bounds {s : GoString} {n : Nat} (h : PbTimeShape s n) :
    22 ≤ n ∧ n ≤ s.length ∧ s[n - 1]? = some 34 := by
  obtain ⟨_, ⟨hn, _, hq⟩ | ⟨w, k, hk1, hk3, hn, hg⟩⟩ := h
  · subst hn
    have : 21 < s.length := by
      by_contra hc
      rw [List.getElem?_eq_none (by omega)] at hq
      simp at hq
    exact ⟨by omega, by omega, hq⟩
  · obtain ⟨_, _, _, _, _, hq⟩ := hg
    rw [List.getElem?_drop] at hq
    have : 20 + (w + k + 1) < s.length := by
      by_contra hc
      rw [List.getElem?_eq_none (by omega)] at hq
      simp at hq
    refine ⟨by omega, by omega, ?_⟩
    rw [show n - 1 = 20 + (w + k + 1) by omega]
    exact hq

/-- The class of every byte of an occurrence past position 20: a byte of a multi-byte rune,
a digit, the `Z` before the last byte, or the closing quote. -/
theorem PbTimeShape_late_byte {s : GoString} {n : Nat} (h : PbTimeShape s n) (o c : Nat)
    (ho : 20 < o) (hon : o < n) (hc : s[o]? = some c) :
    128 ≤ c ∨ (48 ≤ c ∧ c ≤ 57) ∨ (c = 90 ∧ o + 2 = n) ∨ (c = 34 ∧ o + 1 = n) := by
  obtain ⟨_, ⟨hn, _, hq⟩ | ⟨w, k, hk1, hk3, hn, hg⟩⟩ := h
  · have : o = 21 := by omega
    subst this
    rw [hq] at hc
    simp at hc
    omega
  · obtain ⟨hne, _, hw, hd, hz, hq⟩ := hg
    have hwp := DecodeRune_width_pos _ hne
    rw [hw] at hwp
    by_cases h1 : o < 20 + w
    · have hwide := DecodeRune_wide _ w hw (by omega) (o - 20) (by omega)
      obtain ⟨d, h2, h3⟩ := hwide
      rw [List.getElem?_drop, show 20 + (o - 20) = o by omega, hc] at h2
      simp at h2
      omega
    · by_cases h2 : o < 20 + w + k
      · obtain ⟨d, h3, h4⟩ := hd (o - 20 - w) (by omega)
        rw [List.getElem?_drop, show 20 + (w + (o - 20 - w)) = o by omega, hc] at h3
        simp at h3
        omega
      · by_cases h3 : o = 20 + w + k
        · rw [List.getElem?_drop, show 20 + (w + k) = o by omega, hc] at hz
          simp at hz
          omega
        · rw [List.getElem?_drop, show 20 + (w + k + 1) = o by omega, hc] at hq
          simp at hq
          omega

theorem PbTimeShape_T {s : GoString} {n : Nat} (h : PbTimeShape s n) (o : Nat) (hon : o < n)
    (hc : s[o]? = some 84) : o = 20 := by
  by_contra hne
  by_cases h20 : o < 20
  · obtain ⟨c, h1, h2⟩ := HeadShape_byte h.1 o h20
    rw [hc] at h1
    simp at h1
    subst h1
    exact (head_byte_cases o h20 84 h2).1 rfl
  · have := PbTimeShape_late_byte h o 84 (by omega) hon hc
    omega

theorem PbTimeShape_quote {s : GoString} {n : Nat} (h : PbTimeShape s n) (o : Nat)
    (hon : o < n) (hc : s[o]? = some 34) : o = 0 ∨ o = 20 ∨ o + 1 = n := by
  by_cases h20 : o < 20
  · obtain ⟨c, h1, h2⟩ := HeadShape_byte h.1 o h20
    rw [hc] at h1
    simp at h1
    subst h1
    exact Or.inl ((head_byte_cases o h20 34 h2).2.2.1.1 rfl)
  · by_cases h21 : o = 20
    · exact Or.inr (Or.inl h21)
    · have := PbTimeShape_late_byte h o 34 (by omega) hon hc
      omega


theorem PbTimeShape_head_facts {s : GoString} {n : Nat} (h : PbTimeShape s n) :
    s[0]? = some 34 ∧ s[11]? = some 32 ∧ (∀ i, i < 11 → s[i]? ≠ some 32) ∧
      (∀ i, 1 ≤ i → i ≤ 4 → digitAt s i) ∧ digitAt s 9 := by
  have hb := HeadShape_byte h.1
  refine ⟨?_, ?_, ?_, ?_, ?_⟩
  · obtain ⟨c, h1, h2⟩ := hb 0 (by omega)
    have := (head_byte_cases 0 (by omega) c h2).2.2.1.2 rfl
    rw [h1, this]
  · obtain ⟨c, h1, h2⟩ := hb 11 (by omega)
    have := (head_byte_cases 11 (by omega) c h2).2.2.2.1.2 rfl
    rw [h1, this]
  · intro i hi hc
    obtain ⟨c, h1, h2⟩ := hb i (by omega)
    rw [hc] at h1
    simp at h1
    subst h1
    have := (head_byte_cases i (by omega) 32 h2).2.2.2.1.1 rfl
    omega
  · intro i h1 h4
    obtain ⟨c, h2, h3⟩ := hb i (by omega)
    exact ⟨c, h2, (head_byte_cases i (by omega) c h3).2.2.2.2.1 (by omega) (by omega)
      (by omega) (by omega) (by omega) (by omega)⟩
  · obtain ⟨c, h2, h3⟩ := hb 9 (by omega)
    exact ⟨c, h2, (head_byte_cases 9 (by omega) c h3).2.2.2.2.1 (by omega) (by omega)
      (by omega) (by omega) (by omega) (by omega)⟩

/-- No occurrence starts strictly inside another one, before its closing quote. -/
theorem PbTimeShape_no_inner {s : GoString} {n : Nat} (h : PbTimeShape s n) (o m : Nat)
    (h1 : 1 ≤ o) (h2 : o + 1 < n) : ¬ PbTimeShape (s.drop o) m := by
  intro hin
  have hf := PbTimeShape_head_facts hin
  have hq := hf.1
  rw [List.getElem?_drop, Nat.add_zero] at hq
  have ho : o = 20 := by
    rcases PbTimeShape_quote h o (by omega) hq with h3 | h3 | h3 <;> omega
  subst ho
  obtain ⟨_, ⟨hn, hz, _⟩ | ⟨w, k, hk1, hk3, hn, hg⟩⟩ := h
  · rw [hz] at hq
    simp at hq
  · obtain ⟨hne, _, hw, hd, hz, _⟩ := hg
    have hw1 : w = 1 := by
      cases hr : List.drop 20 s with
      | nil => exact absurd hr hne
      | cons c r =>
        have : (List.drop 20 s)[0]? = some 34 := by
          rw [List.getElem?_drop, Nat.add_zero]; exact hq
        rw [hr] at this hw
        simp at this
        subst this
        rw [DecodeRune_ascii 34 r (by omega)] at hw
        exact hw.symm
    subst hw1
    obtain ⟨c, h3, h4⟩ := hf.2.2.2.1 (1 + k) (by omega) (by omega)
    rw [hz] at h3
    simp at h3
    omega

theorem PbTimeShape_congr {s s' : GoString} {n : Nat} (h : PbTimeShape s n)
    (heq : ∀ i, i < n → s[i]? = s'[i]?) : PbTimeShape s' n := by
  have hb := PbTimeShape_bounds h
  refine ⟨?_, ?_⟩
  · apply HeadShape_of_bytes
    intro i hi
    obtain ⟨c, h1, h2⟩ := HeadShape_byte h.1 i hi
    exact ⟨c, by rw [← heq i (by omega)]; exact h1, h2⟩
  · obtain ⟨_, ⟨hn, hz, hq⟩ | ⟨w, k, hk1, hk3, hn, hg⟩⟩ := h
    · left
      exact ⟨hn, by rw [← heq 20 (by omega)]; exact hz, by rw [← heq 21 (by omega)]; exact hq⟩
    · right
      obtain ⟨hne, hnl, hw, hd, hz, hq⟩ := hg
      have hwp := DecodeRune_width_pos _ hne
      rw [hw] at hwp
      have htake : List.take 4 (List.drop 20 s) = List.take 4 (List.drop 20 s') := by
        apply List.ext_getElem?
        intro i
        by_cases hi : i < 4
        · rw [List.getElem?_take_of_lt hi, List.getElem?_take_of_lt hi, List.getElem?_drop,
            List.getElem?_drop]
          exact heq _ (by omega)
        · rw [List.getElem?_take_eq_none (by omega), List.getElem?_take_eq_none (by omega)]
      have hdec : DecodeRune (List.drop 20 s') = DecodeRune (List.drop 20 s) := by
        rw [DecodeRune_take, ← htake, ← DecodeRune_take]
      refine ⟨w, k, hk1, hk3, hn, ?_, ?_, ?_, ?_, ?_, ?_⟩
      · intro hnil
        have h0 : (List.drop 20 s)[0]? = (List.drop 20 s')[0]? := by
          rw [List.getElem?_drop, List.getElem?_drop]
          exact heq _ (by omega)
        rw [hnil] at h0
        cases hr : List.drop 20 s with
        | nil => exact hne hr
        | cons c r => rw [hr] at h0; simp at h0
      · rw [hdec]; exact hnl
      · rw [hdec]; exact hw
      · intro i hi
        obtain ⟨c, h1, h2⟩ := hd i hi
        refine ⟨c, ?_, h2⟩
        rw [List.getElem?_drop] at h1 ⊢
        rw [← heq _ (by omega)]
        exact h1
      · rw [List.getElem?_drop] at hz ⊢
        rw [← heq _ (by omega)]
        exact hz
      · rw [List.getElem?_drop] at hq ⊢
        rw [← heq _ (by omega)]
        exact hq


/-! ## The replacement loop -/

theorem replaceAllLoop_fuel (re : List (List Atom)) (repl : GoString → GoString)
    (hpos : ∀ s n, matchAt re s = some n → 1 ≤ n) :
    ∀ (f1 f2 : Nat) (s : GoString), s.length < f1 → s.length < f2 →
      replaceAllLoop re repl f1 s = replaceAllLoop re repl f2 s := by
  intro f1
  induction f1 with
  | zero => intro f2 s h; omega
  | succ f1 ih =>
    intro f2 s h1 h2
    cases f2 with
    | zero => omega
    | succ f2 =>
      cases s with
      | nil => rfl
      | cons c s =>
        simp only [replaceAllLoop]
        cases hm : matchAt re (c :: s) with
        | none =>
          simp only
          rw [ih f2 s (by simp at h1; omega) (by simp at h2; omega)]
        | some n =>
          have := hpos _ _ hm
          simp only
          rw [ih f2 _ (by simp at h1 ⊢; omega) (by simp at h2 ⊢; omega)]

theorem matchAt_pbTime_pos (s : GoString) (n : Nat) (h : matchAt pbTimeRegex s = some n) :
    1 ≤ n := by
  have := PbTimeShape_bounds ((matchAt_iff s n).1 h)
  omega

theorem parseFromPB_nil : parseFromPB [] = [] := rfl

theorem parseFromPB_hit (s : GoString) (n : Nat) (h : PbTimeShape s n) :
    parseFromPB s = bytesReplaceFirst 32 84 (s.take n) ++ parseFromPB (s.drop n) := by
  have hb := PbTimeShape_bounds h
  have hm := (matchAt_iff s n).2 h
  cases s with
  | nil => simp at hb
  | cons c s =>
    simp only [parseFromPB, ReplaceAllFunc, replaceAllLoop, hm]
    congr 1
    apply replaceAllLoop_fuel _ _ matchAt_pbTime_pos
    · simp
      omega
    · simp

theorem parseFromPB_miss (c : Nat) (s : GoString) (h : ∀ n, ¬ PbTimeShape (c :: s) n) :
    parseFromPB (c :: s) = c :: parseFromPB s := by
  have hm : matchAt pbTimeRegex (c :: s) = none := by
    cases hx : matchAt pbTimeRegex (c :: s) with
    | none => rfl
    | some n => exact absurd ((matchAt_iff _ n).1 hx) (h n)
  simp only [parseFromPB, ReplaceAllFunc, replaceAllLoop, hm]
  rfl

/-- Induction along the scan of `parseFromPB`: at an occurrence the scan replaces and jumps
past it, elsewhere it copies one byte. -/
theorem parseFromPB_induction (P : GoString → GoString → Prop) (hnil : P [] [])
    (hit : ∀ s n, PbTimeShape s n → P (s.drop n) (parseFromPB (s.drop n)) →
      P s (bytesReplaceFirst 32 84 (s.take n) ++ parseFromPB (s.drop n)))
    (miss : ∀ c t, (∀ n, ¬ PbTimeShape (c :: t) n) → P t (parseFromPB t) →
      P (c :: t) (c :: parseFromPB t)) :
    ∀ s, P s (parseFromPB s) := by
  intro s
  generalize hl : s.length = l
  induction l using Nat.strong_induction_on generalizing s with
  | _ l ih =>
    cases s with
    | nil => exact hnil
    | cons c t =>
      by_cases hex : ∃ n, PbTimeShape (c :: t) n
      · obtain ⟨n, hn⟩ := hex
        have hb := PbTimeShape_bounds hn
        rw [parseFromPB_hit _ n hn]
        apply hit _ n hn
        exact ih _ (by rw [← hl, List.length_drop]; omega) _ rfl
      · rw [parseFromPB_miss c t (fun n hn => hex ⟨n, hn⟩)]
        apply miss c t (fun n hn => hex ⟨n, hn⟩)
        exact ih _ (by rw [← hl]; simp) _ rfl

theorem bytesReplaceFirst_length (old new : Nat) (l : GoString) :
    (bytesReplaceFirst old new l).length = l.length := by
  induction l with
  | nil => rfl
  | cons c l ih =>
    simp only [bytesReplaceFirst]
    split_ifs <;> simp [ih]

theorem bytesReplaceFirst_get (old new : Nat) (l : GoString) (i : Nat)
    (hi : l[i]? = some old) (hfirst : ∀ j, j < i → l[j]? ≠ some old) (p : Nat) :
    (bytesReplaceFirst old new l)[p]? = if p = i then some new else l[p]? := by
  induction l generalizing i p with
  | nil => simp at hi
  | cons c l ih =>
    simp only [bytesReplaceFirst]
    cases i with
    | zero =>
      have hc : c = old := by simpa using hi
      simp only [hc, if_true]
      cases p with
      | zero => simp
      | succ p => simp
    | succ i =>
      have hc : c ≠ old := by
        have := hfirst 0 (by omega)
        simpa using this
      simp only [hc, if_false]
      cases p with
      | zero => simp
      | succ p =>
        simp only [List.getElem?_cons_succ, Nat.add_right_cancel_iff]
        apply ih i (by simpa using hi)
        intro j hj
        have := hfirst (j + 1) (by omega)
        simpa using this

/-- The replacement applied to an occurrence writes `T` at offset 11 and nothing else. -/
theorem replaced_get {s : GoString} {n : Nat} (h : PbTimeShape s n) (p : Nat) (hp : p < n) :
    (bytesReplaceFirst 32 84 (s.take n))[p]? = if p = 11 then some 84 else s[p]? := by
  have hb := PbTimeShape_bounds h
  have hf := PbTimeShape_head_facts h
  rw [bytesReplaceFirst_get 32 84 (s.take n) 11]
  · rw [List.getElem?_take_of_lt hp]
  · rw [List.getElem?_take_of_lt (by omega)]
    exact hf.2.1
  · intro j hj
    rw [List.getElem?_take_of_lt (by omega)]
    exact hf.2.2.1 j hj

theorem replaced_length {s : GoString} {n : Nat} (h : PbTimeShape s n) :
    (bytesReplaceFirst 32 84 (s.take n)).length = n := by
  have hb := PbTimeShape_bounds h
  rw [bytesReplaceFirst_length, List.length_take]
  omega


/-! ## What one pass of `parseFromPB` changes -/

theorem parseFromPB_length (s : GoString) : (parseFromPB s).length = s.length := by
  apply parseFromPB_induction (fun s out => out.length = s.length)
  · rfl
  · intro s n h ih
    have hb := PbTimeShape_bounds h
    rw [List.length_append, replaced_length h, ih, List.length_drop]
    omega
  · intro c t _ ih
    simp [ih]

/-- A byte changed by one pass was the separating space of a replaced occurrence: it is now
`T`, and the byte 11 positions earlier is the opening quote. -/
theorem parseFromPB_changed (s : GoString) :
    ∀ p, (parseFromPB s)[p]? ≠ s[p]? →
      (parseFromPB s)[p]? = some 84 ∧ s[p]? = some 32 ∧ 11 ≤ p ∧
        (parseFromPB s)[p - 11]? = some 34 := by
  apply parseFromPB_induction (fun s out => ∀ p, out[p]? ≠ s[p]? →
      out[p]? = some 84 ∧ s[p]? = some 32 ∧ 11 ≤ p ∧ out[p - 11]? = some 34)
  · intro p h
    exact absurd rfl h
  · intro s n h ih p hp
    have hb := PbTimeShape_bounds h
    have hlen := replaced_length h
    have hf := PbTimeShape_head_facts h
    by_cases hpn : p < n
    · rw [List.getElem?_append_left (by omega), replaced_get h p hpn] at hp ⊢
      by_cases h11 : p = 11
      · subst h11
        refine ⟨by simp, hf.2.1, by omega, ?_⟩
        rw [List.getElem?_append_left (by omega), replaced_get h _ (by omega)]
        simpa using hf.1
      · simp [h11] at hp
    · rw [List.getElem?_append_right (by omega), hlen] at hp ⊢
      have hs : s[p]? = (List.drop n s)[p - n]? := by
        rw [List.getElem?_drop]
        congr 1
        omega
      rw [hs] at hp ⊢
      obtain ⟨h1, h2, h3, h4⟩ := ih (p - n) hp
      refine ⟨h1, h2, by omega, ?_⟩
      rw [List.getElem?_append_right (by omega), hlen, show p - 11 - n = p - n - 11 by omega]
      exact h4
  · intro c t _ ih p hp
    cases p with
    | zero => simp at hp
    | succ p =>
      simp only [List.getElem?_cons_succ] at hp ⊢
      obtain ⟨h1, h2, h3, h4⟩ := ih p hp
      refine ⟨h1, h2, by omega, ?_⟩
      rw [show p + 1 - 11 = (p - 11) + 1 by omega, List.getElem?_cons_succ]
      exact h4

/-- An occurrence found in the output of one pass was already an occurrence of the input,
at the same place and with the same length. -/
theorem parseFromPB_occurrence_was_there (s : GoString) (j m : Nat)
    (h : PbTimeShape ((parseFromPB s).drop j) m) : PbTimeShape (s.drop j) m := by
  apply PbTimeShape_congr h
  intro i hi
  rw [List.getElem?_drop, List.getElem?_drop]
  by_contra hne
  obtain ⟨h1, _, h3, h4⟩ := parseFromPB_changed s (j + i) hne
  have hT : (List.drop j (parseFromPB s))[i]? = some 84 := by
    rw [List.getElem?_drop]; exact h1
  have h20 := PbTimeShape_T h i hi hT
  subst h20
  obtain ⟨c, h5, h6⟩ := (PbTimeShape_head_facts h).2.2.2.2
  rw [List.getElem?_drop, show j + 20 - 11 = j + 9 by omega] at *
  rw [h4] at h5
  simp at h5
  omega

theorem NoSharedQuote_drop {s : GoString} (h : NoSharedQuote s) (d : Nat) :
    NoSharedQuote (s.drop d) := by
  intro i n hi m hm
  rw [List.drop_drop] at hi hm
  have hb := PbTimeShape_bounds hi
  apply h (d + i) n hi m
  rw [show d + i + n - 1 = d + (i + n - 1) by omega]
  exact hm

/-- When no two occurrences share a quote, every occurrence of the input is replaced. -/
theorem parseFromPB_replaces_all (s : GoString) :
    NoSharedQuote s → ∀ j n, PbTimeShape (s.drop j) n →
      (parseFromPB s)[j + 11]? = some 84 := by
  apply parseFromPB_induction (fun s out => NoSharedQuote s → ∀ j n,
      PbTimeShape (s.drop j) n → out[j + 11]? = some 84)
  · intro _ j n h
    have := PbTimeShape_bounds h
    simp at this
  · intro s n h ih hns j k hj
    have hb := PbTimeShape_bounds h
    have hlen := replaced_length h
    by_cases hj0 : j = 0
    · subst hj0
      rw [List.getElem?_append_left (by omega), replaced_get h _ (by omega)]
      simp
    · have hjn : n ≤ j := by
        by_contra hlt
        by_cases hlast : j + 1 = n
        · have := hns 0 n (by simpa using h) k
          rw [show 0 + n - 1 = j by omega] at this
          exact this hj
        · exact PbTimeShape_no_inner h j k (by omega) (by omega) hj
      rw [List.getElem?_append_right (by omega), hlen, show j + 11 - n = (j - n) + 11 by omega]
      apply ih (NoSharedQuote_drop hns n) (j - n) k
      rw [List.drop_drop, show n + (j - n) = j by omega]
      exact hj
  · intro c t hmiss ih hns j k hj
    cases j with
    | zero => exact absurd (by simpa using hj) (hmiss k)
    | succ j =>
      rw [show j + 1 + 11 = (j + 11) + 1 by omega, List.getElem?_cons_succ]
      apply ih _ j k (by simpa using hj)
      have := NoSharedQuote_drop hns 1
      simpa using this

/-- When no two occurrences of the input share a quote, the output holds no occurrence. -/
theorem parseFromPB_no_occurrence_left (s : GoString) (h : NoSharedQuote s) (j m : Nat) :
    ¬ PbTimeShape ((parseFromPB s).drop j) m := by
  intro hout
  have hin := parseFromPB_occurrence_was_there s j m hout
  have hT := parseFromPB_replaces_all s h j m hin
  have hsp := (PbTimeShape_head_facts hout).2.1
  rw [List.getElem?_drop, hT] at hsp
  simp at hsp

/-- A buffer without occurrence is returned unchanged. -/
theorem parseFromPB_fixed (s : GoString) :
    (∀ j m, ¬ PbTimeShape (s.drop j) m) → parseFromPB s = s := by
  apply parseFromPB_induction (fun s out => (∀ j m, ¬ PbTimeShape (s.drop j) m) → out = s)
  · intro _
    rfl
  · intro s n h _ hno
    exact absurd (by simpa using h) (hno 0 n)
  · intro c t _ ih hno
    rw [ih]
    intro j m hjm
    exact hno (j + 1) m (by simpa using hjm)


/-! ## helpers.go: the claims on `parseFromPB` -/

/-- C9: the separator of the optional fraction is the unescaped `.` of the pattern, which
matches any character: a quoted datetime followed by `x123Z` (no literal `.`) is converted
all the same, and so is one whose separator is the two-byte character `é`; the claim expects
both buffers to come back unchanged. The documented shape with a literal `.` is converted
as stated. -/
theorem parseFromPB_any_fraction_separator :
    parseFromPB (ascii "\"2023-01-02 03:04:05x123Z\"") = ascii "\"2023-01-02T03:04:05x123Z\"" ∧
    parseFromPB (ascii "\"2023-01-02 03:04:05" ++ [0xC3, 0xA9] ++ ascii "1Z\"")
      = ascii "\"2023-01-02T03:04:05" ++ [0xC3, 0xA9] ++ ascii "1Z\"" ∧
    parseFromPB (ascii "\"2023-01-02 03:04:05.123Z\"") = ascii "\"2023-01-02T03:04:05.123Z\"" := by
  decide

/-- C10 (counterexample): when two quoted datetimes share a quote, the first pass converts
the first one only and the second pass converts the other: the second pass changes the
output of the first. -/
theorem parseFromPB_second_pass_changes :
    parseFromPB (ascii "\"2023-01-02 03:04:05Z\"2023-01-02 03:04:05Z\"")
      = ascii "\"2023-01-02T03:04:05Z\"2023-01-02 03:04:05Z\"" ∧
    parseFromPB (parseFromPB (ascii "\"2023-01-02 03:04:05Z\"2023-01-02 03:04:05Z\""))
      = ascii "\"2023-01-02T03:04:05Z\"2023-01-02T03:04:05Z\"" ∧
    parseFromPB (parseFromPB (ascii "\"2023-01-02 03:04:05Z\"2023-01-02 03:04:05Z\""))
      ≠ parseFromPB (ascii "\"2023-01-02 03:04:05Z\"2023-01-02 03:04:05Z\"") := by
  decide

/-- C10 (amended): for every buffer in which no occurrence of the pattern starts at the
closing quote of another occurrence, a second pass of `parseFromPB` changes nothing. -/
theorem parseFromPB_idempotent_of_no_shared_quote (b : GoString)
    (h : ∀ i n, matchAt pbTimeRegex (b.drop i) = some n →
      matchAt pbTimeRegex (b.drop (i + n - 1)) = none) :
    parseFromPB (parseFromPB b) = parseFromPB b := by
  have hns : NoSharedQuote b := by
    intro i n hi m hm
    have := h i n ((matchAt_iff _ n).2 hi)
    rw [(matchAt_iff _ m).2 hm] at this
    exact absurd this (by simp)
  exact parseFromPB_fixed _ (parseFromPB_no_occurrence_left b hns)

/-- Witness for C10: a JSON object with one datetime is converted by the first pass and left
unchanged by the second. -/
theorem parseFromPB_idempotent_of_no_shared_quote_witness :
    parseFromPB (ascii "\x7b\"a\":\"2023-01-02 03:04:05.123Z\"\x7d")
      = ascii "\x7b\"a\":\"2023-01-02T03:04:05.123Z\"\x7d" ∧
    parseFromPB (parseFromPB (ascii "\x7b\"a\":\"2023-01-02 03:04:05.123Z\"\x7d"))
      = parseFromPB (ascii "\x7b\"a\":\"2023-01-02 03:04:05.123Z\"\x7d") :=
  ⟨by decide,
    parseFromPB_idempotent_of_no_shared_quote _ (by
      have hall : ∀ i, i < 33 →
          matchAt pbTimeRegex ((ascii "\x7b\"a\":\"2023-01-02 03:04:05.123Z\"\x7d").drop i)
            = if i = 5 then some 26 else none := by decide
      intro i n hin
      by_cases hi : i < 33
      · rw [hall i hi] at hin
        by_cases h5 : i = 5
        · subst h5
          simp only [if_true, Option.some.injEq] at hin
          subst hin
          decide
        · simp [h5] at hin
      · rw [List.drop_eq_nil_of_le (by
          have : (ascii "\x7b\"a\":\"2023-01-02 03:04:05.123Z\"\x7d").length = 32 := by decide
          omega)] at hin
        have hnil : matchAt pbTimeRegex [] = none := by decide
        rw [hnil] at hin
        exact absurd hin (by simp))⟩


/-! ## Tokens: the segment check -/

theorem Split_ne_nil (s : GoString) (sep : Nat) : Split s sep ≠ [] := by
  induction s with
  | nil => simp [Split]
  | cons c s ih =>
    unfold Split
    split_ifs
    · simp
    · cases h : Split s sep with
      | nil => simp
      | cons seg segs => simp

theorem Split_length (s : GoString) (sep : Nat) : (Split s sep).length = s.count sep + 1 := by
  induction s with
  | nil => simp [Split]
  | cons c s ih =>
    unfold Split
    by_cases h : c = sep
    · simp [h, ih]
    · have hne := Split_ne_nil s sep
      cases hs : Split s sep with
      | nil => exact absurd hs hne
      | cons seg segs =>
        rw [hs] at ih
        simp only [h, if_false]
        rw [List.count_cons_of_ne (fun hh => h hh.symm)]
        simpa using ih

theorem extractExpirationDate_of_count (token : GoString) (h : token.count 46 ≠ 2) :
    extractExpirationDate token = (zeroTime, some (Error.new "invalid token format")) := by
  have hl : (Split token 46).length ≠ 3 := by
    rw [Split_length]
    omega
  simp [extractExpirationDate, hl]

/-- C6: a token that does not hold exactly two `.` does not split into three segments;
`extractExpirationDate` then returns the zero time and the error `invalid token format`, and
`parseToken` returns no token and an error whenever the decoded response carries such a
token string (and also when decoding the response fails). -/
theorem extractExpirationDate_segment_check (token : GoString) (h : token.count 46 ≠ 2) :
    (Split token 46).length ≠ 3 ∧
    extractExpirationDate token = (zeroTime, some (Error.new "invalid token format")) ∧
    ∀ (decode : GoString → Token → GoString × Token × Option Error) (r : GoString),
      (decode r {}).2.1.Token = token →
        (parseToken decode r).1 = none ∧ (parseToken decode r).2 ≠ none := by
  refine ⟨?_, extractExpirationDate_of_count token h, ?_⟩
  · rw [Split_length]
    omega
  · intro decode r hd
    unfold parseToken unmarshalPB
    simp only [ne_eq, not_true_eq_false, if_false]
    rcases hdec : decode r {} with ⟨r', t, err⟩
    rw [hdec] at hd
    simp only at hd
    cases err with
    | some e => simp
    | none =>
      simp only [Output.pointee]
      rw [hd, extractExpirationDate_of_count token h]
      simp

/-- Witness for C6: the empty token and a two-segment token are rejected, and a response
whose token string is `a.b` yields no token. -/
theorem extractExpirationDate_segment_check_witness :
    extractExpirationDate [] = (zeroTime, some (Error.new "invalid token format")) ∧
    extractExpirationDate (ascii "a.b") = (zeroTime, some (Error.new "invalid token format")) ∧
    (parseToken (fun _ t => ([], { t with Token := ascii "a.b" }, none)) (ascii "body")).1
      = none :=
  have h0 := extractExpirationDate_segment_check [] (by decide)
  have h1 := extractExpirationDate_segment_check (ascii "a.b") (by decide)
  ⟨h0.2.1, h1.2.1,
    (h1.2.2 (fun _ t => ([], { t with Token := ascii "a.b" }, none)) (ascii "body") rfl).1⟩


/-! ## Tokens: splitting a three-segment token -/

theorem Split_of_not_mem (a : GoString) (sep : Nat) (h : sep ∉ a) : Split a sep = [a] := by
  induction a with
  | nil => rfl
  | cons c a ih =>
    have hc : c ≠ sep := fun hh => h (by simp [hh])
    have ha : sep ∉ a := fun hh => h (List.mem_cons_of_mem _ hh)
    simp [Split, hc, ih ha]

theorem Split_append_sep (a b : GoString) (sep : Nat) (h : sep ∉ a) :
    Split (a ++ sep :: b) sep = a :: Split b sep := by
  induction a with
  | nil => simp [Split]
  | cons c a ih =>
    have hc : c ≠ sep := fun hh => h (by simp [hh])
    have ha : sep ∉ a := fun hh => h (List.mem_cons_of_mem _ hh)
    simp [Split, hc, ih ha]

theorem Split_three (hd mid sig : GoString) (h1 : 46 ∉ hd) (h2 : 46 ∉ mid) (h3 : 46 ∉ sig) :
    Split (hd ++ 46 :: (mid ++ 46 :: sig)) 46 = [hd, mid, sig] := by
  rw [Split_append_sep _ _ _ h1, Split_append_sep _ _ _ h2, Split_of_not_mem _ _ h3]

theorem extractExpirationDate_three (hd mid sig : GoString) (h1 : 46 ∉ hd) (h2 : 46 ∉ mid)
    (h3 : 46 ∉ sig) :
    extractExpirationDate (hd ++ 46 :: (mid ++ 46 :: sig)) =
      match DecodeString mid with
      | (_, some err) => (zeroTime, some (Error.wrap "failed to decode token payload" err))
      | (payload, none) =>
        match jsonUnmarshalClaims payload with
        | (_, some err) =>
          (zeroTime, some (Error.wrap "failed to unmarshal token claims" err))
        | (claims, none) => (Unix claims.ExpiresAt 0, none) := by
  simp [extractExpirationDate, Split_three hd mid sig h1 h2 h3]

/-! ## Decimal numerals -/

theorem digitChar_toNat (m : Nat) (h : m < 10) : (Nat.digitChar m).toNat = 48 + m := by
  interval_cases m <;> rfl

theorem decimalValue_append_one (l : GoString) (c : Nat) :
    decimalValue (l ++ [c]) = decimalValue l * 10 + (c - 48) := by
  simp [decimalValue, List.foldl_append]

/-- The digits written by `Nat.toDigits 10`: a leading digit that is zero only for the
number zero, followed by digits, whose decimal value is the number. -/
theorem toDigitsCore_spec (fuel n : Nat) (acc : List Char) (h : n < fuel) :
    ∃ d ds, (Nat.toDigitsCore 10 fuel n acc).map Char.toNat = d :: (ds ++ acc.map Char.toNat) ∧
      isDigit d = true ∧ ds.all isDigit = true ∧ (n = 0 → d = 48 ∧ ds = []) ∧
      (n ≠ 0 → d ≠ 48) ∧ decimalValue (d :: ds) = n := by
  induction fuel generalizing n acc with
  | zero => omega
  | succ fuel ih =>
    simp only [Nat.toDigitsCore]
    by_cases h0 : n / 10 = 0
    · simp only [h0, if_true]
      have hn : n < 10 := by omega
      refine ⟨48 + n, [], ?_, ?_, ?_, ?_, ?_, ?_⟩
      · simp [Nat.mod_eq_of_lt hn, digitChar_toNat _ hn]
      · simp [isDigit]; omega
      · rfl
      · intro h; simp [h]
      · intro h; omega
      · simp [decimalValue]
    · simp only [h0, if_false]
      obtain ⟨d, ds, h1, h2, h3, h4, h5, h6⟩ := ih (n / 10) (Nat.digitChar (n % 10) :: acc)
        (by omega)
      refine ⟨d, ds ++ [48 + n % 10], ?_, h2, ?_, ?_, ?_, ?_⟩
      · rw [h1]
        simp [digitChar_toNat _ (Nat.mod_lt n (by omega))]
      · simp only [List.all_append, h3, Bool.true_and, List.all_cons, List.all_nil, Bool.and_true]
        simp [isDigit]
        omega
      · intro h; omega
      · intro _; exact h5 h0
      · have : d :: (ds ++ [48 + n % 10]) = (d :: ds) ++ [48 + n % 10] := rfl
        rw [this, decimalValue_append_one, h6]
        omega

theorem toDigits_spec (n : Nat) :
    ∃ d ds, (Nat.toDigits 10 n).map Char.toNat = d :: ds ∧
      isDigit d = true ∧ ds.all isDigit = true ∧ (n = 0 → d = 48 ∧ ds = []) ∧
      (n ≠ 0 → d ≠ 48) ∧ decimalValue (d :: ds) = n := by
  obtain ⟨d, ds, h1, h2⟩ := toDigitsCore_spec (n + 1) n [] (by omega)
  exact ⟨d, ds, by simpa [Nat.toDigits] using h1, h2⟩


/-- The numeral written by `formatInt`: an optional minus sign, then digits without a
superfluous leading zero, whose value is the absolute value of the number. -/
theorem formatInt_shape (n : Int) :
    ∃ sign d ds, formatInt n = sign ++ d :: ds ∧
      ((sign = [] ∧ 0 ≤ n) ∨ (sign = [45] ∧ n < 0)) ∧
      isDigit d = true ∧ ds.all isDigit = true ∧ (d = 48 → ds = []) ∧
      decimalValue (d :: ds) = n.natAbs := by
  cases n with
  | ofNat k =>
    obtain ⟨d, ds, h1, h2, h3, h4, h5, h6⟩ := toDigits_spec k
    refine ⟨[], d, ds, by simpa [formatInt] using h1, Or.inl ⟨rfl, by simp⟩, h2, h3, ?_, ?_⟩
    · intro hd
      by_cases hk : k = 0
      · exact (h4 hk).2
      · exact absurd hd (h5 hk)
    · simpa using h6
  | negSucc k =>
    obtain ⟨d, ds, h1, h2, h3, h4, h5, h6⟩ := toDigits_spec (k + 1)
    refine ⟨[45], d, ds, by simp [formatInt, h1], Or.inr ⟨rfl, by simp [Int.negSucc_lt_zero]⟩,
      h2, h3, ?_, ?_⟩
    · intro hd
      exact absurd hd (h5 (by omega))
    · rw [h6]
      simp [Int.natAbs]

theorem ParseInt_formatInt (n : Int) (h : IsInt64 n) : ParseInt (formatInt n) = some n := by
  obtain ⟨sign, d, ds, h1, h2, h3, h4, _, h6⟩ := formatInt_shape n
  have hd : d ≠ 45 ∧ d ≠ 43 := by
    simp [isDigit] at h3
    omega
  unfold IsInt64 at h
  rw [h1]
  rcases h2 with ⟨hs, hn⟩ | ⟨hs, hn⟩
  · subst hs
    have hv : (decimalValue (d :: ds) : Int) = n := by
      rw [h6]
      omega
    have hlt : decimalValue (d :: ds) < 2 ^ 63 := by
      have : (decimalValue (d :: ds) : Int) < 2 ^ 63 := by rw [hv]; exact h.2
      exact_mod_cast this
    simp only [List.nil_append, ParseInt, hd.1, hd.2, or_self, if_false]
    have hlt2 : decimalValue (d :: ds) < 9223372036854775808 := by
      have : (2 : Nat) ^ 63 = 9223372036854775808 := by norm_num
      omega
    simp [h3, h4, hlt2, hv]
  · subst hs
    have hv : -(decimalValue (d :: ds) : Int) = n := by
      rw [h6]
      omega
    have hle : decimalValue (d :: ds) ≤ 2 ^ 63 := by
      have : (decimalValue (d :: ds) : Int) ≤ 2 ^ 63 := by omega
      exact_mod_cast this
    simp only [List.cons_append, List.nil_append, ParseInt]
    simp [h3, h4, hv]
    omega


/-! ## base64: decoding inverts encoding -/

theorem decodeMap_encodeURL :
    ∀ i, i < 64 → decodeMap (encodeURL.getD i 0) = some i ∧ encodeURL.getD i 0 ≠ 46 := by
  decide

theorem lor_eq_add (q y k : Nat) (h : y < 2 ^ k) : q * 2 ^ k ||| y = q * 2 ^ k + y := by
  rw [Nat.mul_comm, ← Nat.mul_add_lt_is_or h]

theorem and_63 (x : Nat) : x &&& 0x3F = x % 64 := by
  have := Nat.and_pow_two_sub_one_eq_mod x 6
  simpa using this

theorem pack3 (a b c : Nat) (hb : b < 256) (hc : c < 256) :
    a <<< 16 ||| b <<< 8 ||| c = a * 65536 + b * 256 + c := by
  rw [Nat.shiftLeft_eq, Nat.shiftLeft_eq]
  have h1 : a * 2 ^ 16 ||| b * 2 ^ 8 = a * 2 ^ 16 + b * 2 ^ 8 :=
    lor_eq_add a (b * 2 ^ 8) 16 (by omega)
  rw [h1]
  have h2 : a * 2 ^ 16 + b * 2 ^ 8 = (a * 256 + b) * 2 ^ 8 := by ring
  rw [h2, lor_eq_add _ c 8 (by omega)]
  ring

theorem pack4 (s0 s1 s2 s3 : Nat) (h1 : s1 < 64) (h2 : s2 < 64) (h3 : s3 < 64) :
    s0 <<< 18 ||| s1 <<< 12 ||| s2 <<< 6 ||| s3
      = s0 * 262144 + s1 * 4096 + s2 * 64 + s3 := by
  rw [Nat.shiftLeft_eq, Nat.shiftLeft_eq, Nat.shiftLeft_eq]
  have e1 : s0 * 2 ^ 18 ||| s1 * 2 ^ 12 = s0 * 2 ^ 18 + s1 * 2 ^ 12 :=
    lor_eq_add s0 (s1 * 2 ^ 12) 18 (by omega)
  rw [e1]
  have e2 : s0 * 2 ^ 18 + s1 * 2 ^ 12 = (s0 * 64 + s1) * 2 ^ 12 := by ring
  rw [e2, lor_eq_add _ (s2 * 2 ^ 6) 12 (by omega)]
  have e3 : (s0 * 64 + s1) * 2 ^ 12 + s2 * 2 ^ 6 = ((s0 * 64 + s1) * 64 + s2) * 2 ^ 6 := by ring
  rw [e3, lor_eq_add _ s3 6 (by omega)]
  ring

theorem pack4_zero (s0 s1 s2 : Nat) (h1 : s1 < 64) (h2 : s2 < 64) :
    s0 <<< 18 ||| s1 <<< 12 ||| s2 <<< 6 = s0 * 262144 + s1 * 4096 + s2 * 64 := by
  have := pack4 s0 s1 s2 0 h1 h2 (by omega)
  simpa using this

theorem pack2 (s0 s1 : Nat) (h1 : s1 < 64) :
    s0 <<< 18 ||| s1 <<< 12 = s0 * 262144 + s1 * 4096 := by
  rw [Nat.shiftLeft_eq, Nat.shiftLeft_eq, lor_eq_add s0 (s1 * 2 ^ 12) 18 (by omega)]
  norm_num

theorem decodeQuanta_four (e0 e1 e2 e3 s0 s1 s2 s3 : Nat) (rest : GoString) (si : Nat)
    (h0 : decodeMap e0 = some s0) (h1 : decodeMap e1 = some s1) (h2 : decodeMap e2 = some s2)
    (h3 : decodeMap e3 = some s3) :
    decodeQuanta (e0 :: e1 :: e2 :: e3 :: rest) si [] =
      (((s0 <<< 18 ||| s1 <<< 12 ||| s2 <<< 6 ||| s3) >>> 16) % 256 ::
        ((s0 <<< 18 ||| s1 <<< 12 ||| s2 <<< 6 ||| s3) >>> 8) % 256 ::
        (s0 <<< 18 ||| s1 <<< 12 ||| s2 <<< 6 ||| s3) % 256 ::
        (decodeQuanta rest (si + 4) []).1, (decodeQuanta rest (si + 4) []).2) := by
  simp [decodeQuanta, h0, h1, h2, h3]

/-- Decoding inverts encoding on byte strings, and the encoding holds no `.`. -/
theorem DecodeString_EncodeToString (p : GoString) (hp : IsBytes p) :
    DecodeString (EncodeToString p) = (p, none) ∧ 46 ∉ EncodeToString p := by
  unfold DecodeString
  suffices h : ∀ si, decodeQuanta (EncodeToString p) si [] = (p, none) ∧
      46 ∉ EncodeToString p from h 0
  induction p using EncodeToString.induct with
  | case1 => intro si; simp [EncodeToString, decodeQuanta]
  | case2 a =>
    intro si
    have ha : a < 256 := hp a (by simp)
    simp only [EncodeToString, Nat.shiftLeft_eq, Nat.shiftRight_eq_div_pow, and_63]
    have i0 := decodeMap_encodeURL (a * 2 ^ 16 / 2 ^ 18 % 64) (Nat.mod_lt _ (by omega))
    have i1 := decodeMap_encodeURL (a * 2 ^ 16 / 2 ^ 12 % 64) (Nat.mod_lt _ (by omega))
    refine ⟨?_, ?_⟩
    · simp only [decodeQuanta, i0.1, i1.1, List.nil_append, List.singleton_append]
      rw [pack2 _ _ (Nat.mod_lt _ (by omega))]
      simp only [Nat.shiftRight_eq_div_pow]
      congr 2
      omega
    · simp only [List.mem_cons, List.mem_singleton, not_or, List.not_mem_nil, or_false]
      exact ⟨fun h => i0.2 h.symm, fun h => i1.2 h.symm⟩
  | case3 a b =>
    intro si
    have ha : a < 256 := hp a (by simp)
    have hb : b < 256 := hp b (by simp)
    simp only [EncodeToString, pack3 a b 0 hb (by omega) ▸ (by simp :
      a <<< 16 ||| b <<< 8 = a <<< 16 ||| b <<< 8 ||| 0), Nat.shiftRight_eq_div_pow, and_63]
    have i0 := decodeMap_encodeURL ((a * 65536 + b * 256 + 0) / 2 ^ 18 % 64)
      (Nat.mod_lt _ (by omega))
    have i1 := decodeMap_encodeURL ((a * 65536 + b * 256 + 0) / 2 ^ 12 % 64)
      (Nat.mod_lt _ (by omega))
    have i2 := decodeMap_encodeURL ((a * 65536 + b * 256 + 0) / 2 ^ 6 % 64)
      (Nat.mod_lt _ (by omega))
    refine ⟨?_, ?_⟩
    · simp only [decodeQuanta, i0.1, i1.1, i2.1, List.nil_append, List.singleton_append,
        List.cons_append]
      rw [pack4_zero _ _ _ (Nat.mod_lt _ (by omega)) (Nat.mod_lt _ (by omega))]
      simp only [Nat.shiftRight_eq_div_pow]
      congr 2
      · omega
      · congr 1
        omega
    · simp only [List.mem_cons, List.mem_singleton, not_or, List.not_mem_nil, or_false]
      exact ⟨fun h => i0.2 h.symm, fun h => i1.2 h.symm, fun h => i2.2 h.symm⟩
  | case4 a b c rest ih =>
    intro si
    have ha : a < 256 := hp a (by simp)
    have hb : b < 256 := hp b (by simp)
    have hc : c < 256 := hp c (by simp)
    have hrest : IsBytes rest := fun x hx => hp x (by simp [hx])
    simp only [EncodeToString, pack3 a b c hb hc, Nat.shiftRight_eq_div_pow, and_63]
    have i0 := decodeMap_encodeURL ((a * 65536 + b * 256 + c) / 2 ^ 18 % 64)
      (Nat.mod_lt _ (by omega))
    have i1 := decodeMap_encodeURL ((a * 65536 + b * 256 + c) / 2 ^ 12 % 64)
      (Nat.mod_lt _ (by omega))
    have i2 := decodeMap_encodeURL ((a * 65536 + b * 256 + c) / 2 ^ 6 % 64)
      (Nat.mod_lt _ (by omega))
    have i3 := decodeMap_encodeURL ((a * 65536 + b * 256 + c) % 64) (Nat.mod_lt _ (by omega))
    refine ⟨?_, ?_⟩
    · rw [decodeQuanta_four _ _ _ _ _ _ _ _ _ _ i0.1 i1.1 i2.1 i3.1, (ih hrest (si + 4)).1,
        pack4 _ _ _ _ (Nat.mod_lt _ (by omega)) (Nat.mod_lt _ (by omega))
          (Nat.mod_lt _ (by omega))]
      simp only [Nat.shiftRight_eq_div_pow]
      congr 2
      · omega
      · congr 1
        · omega
        · congr 1
          omega
    · simp only [List.mem_cons, not_or]
      exact ⟨fun h => i0.2 h.symm, fun h => i1.2 h.symm, fun h => i2.2 h.symm,
        fun h => i3.2 h.symm, (ih hrest 0).2⟩


theorem IsBytes_of_all {l : GoString} {p : Nat → Bool} (h : l.all p = true)
    (hp : ∀ c, p c = true → c < 256) : IsBytes l := by
  intro c hc
  exact hp c (List.all_eq_true.1 h c hc)

theorem IsBytes_append {l m : GoString} (hl : IsBytes l) (hm : IsBytes m) : IsBytes (l ++ m) := by
  intro c hc
  rcases List.mem_append.1 hc with h | h
  · exact hl c h
  · exact hm c h

theorem isDigit_lt (c : Nat) (h : isDigit c = true) : c < 256 := by
  simp [isDigit] at h
  omega

theorem isSpace_lt (c : Nat) (h : isSpace c = true) : c < 256 := by
  simp [isSpace] at h
  omega

theorem IsBytes_formatInt (n : Int) : IsBytes (formatInt n) := by
  obtain ⟨sign, d, ds, h1, h2, h3, h4, _⟩ := formatInt_shape n
  rw [h1]
  have hs : IsBytes sign := by
    rcases h2 with ⟨hs, _⟩ | ⟨hs, _⟩ <;> subst hs <;> intro c hc <;> simp at hc
    omega
  apply IsBytes_append hs
  intro c hc
  rcases List.mem_cons.1 hc with h | h
  · subst h; exact isDigit_lt _ h3
  · exact isDigit_lt _ (List.all_eq_true.1 h4 c h)

theorem extractExpirationDate_of_payload (hd sig payload : GoString) (h1 : 46 ∉ hd)
    (h3 : 46 ∉ sig) (hp : IsBytes payload) (claims : StandardClaims)
    (hc : jsonUnmarshalClaims payload = (claims, none)) :
    extractExpirationDate (hd ++ 46 :: (EncodeToString payload ++ 46 :: sig))
      = (Unix claims.ExpiresAt 0, none) := by
  have hb := DecodeString_EncodeToString payload hp
  rw [extractExpirationDate_three hd _ sig h1 hb.2 h3, hb.1]
  simp only [hc]


/-! ## JSON: the scanner accepts the grammar -/

theorem scanString_raw {raw : GoString} (h : RawString raw) (rest : GoString) :
    scanStringFrom StringState.plain (raw ++ 34 :: rest) = some (raw, rest) := by
  induction h with
  | nil => simp [scanStringFrom]
  | plain c raw h1 h2 h3 _ ih =>
    have : ¬ c < 32 := by omega
    simp [scanStringFrom, h2, h3, this, ih]
  | esc e raw he _ ih =>
    by_cases hu : e = 117
    · omega
    · simp [scanStringFrom, hu, he, ih]
  | uni h1 h2 h3 h4 raw e1 e2 e3 e4 _ ih =>
    simp [scanStringFrom, e1, e2, e3, e4, ih]

theorem spanDigits_stop (ds r : GoString) (h : ds.all isDigit = true) (hr : NoDigitAhead r) :
    spanDigits (ds ++ r) = (ds, r) := by
  induction ds with
  | nil =>
    cases r with
    | nil => rfl
    | cons c r => simp [spanDigits, hr c rfl]
  | cons d ds ih =>
    simp only [List.all_cons, Bool.and_eq_true] at h
    simp [spanDigits, h.1, ih h.2]

theorem Delimited_head {rest : GoString} (h : Delimited rest) (c : Nat)
    (hc : rest.head? = some c) :
    isDigit c = false ∧ c ≠ 46 ∧ c ≠ 101 ∧ c ≠ 69 := by
  have := h c hc
  simp only [isSpace, decide_eq_true_eq] at this
  simp only [isDigit, decide_eq_false_iff_not]
  omega

theorem scanIntPart_part {ip : GoString} (h : IntPart ip) (r : GoString)
    (hr : NoDigitAhead r) : scanIntPart (ip ++ r) = some (ip, r) := by
  rcases h with rfl | ⟨d, ds, rfl, h1, h2, h3⟩
  · simp [scanIntPart]
  · have h48 : d ≠ 48 := by omega
    simp [scanIntPart, h48, h1, h2, spanDigits_stop ds r h3 hr]

theorem scanFrac_part {fp : GoString} (h : FracPart fp) (r : GoString)
    (hr : NoDigitAhead r) (hdot : ∀ c, r.head? = some c → c ≠ 46) :
    scanFrac (fp ++ r) = some (fp, r) := by
  rcases h with rfl | ⟨ds, rfl, h1, h2⟩
  · cases r with
    | nil => simp [scanFrac]
    | cons c r =>
      have := hdot c rfl
      simp only [List.nil_append]
      unfold scanFrac
      split
      · rename_i heq
        simp only [List.cons.injEq] at heq
        omega
      · rfl
  · simp [scanFrac, spanDigits_stop ds r h2 hr, h1]

theorem scanExp_part {ep : GoString} (h : ExpPart ep) (r : GoString)
    (hr : NoDigitAhead r) (he : ∀ c, r.head? = some c → c ≠ 101 ∧ c ≠ 69) :
    scanExp (ep ++ r) = some (ep, r) := by
  rcases h with rfl | ⟨e, sign, ds, rfl, h1, h2, h3, h4⟩
  · cases r with
    | nil => simp [scanExp]
    | cons c r =>
      have := he c rfl
      simp [scanExp, this.1, this.2]
  · cases ds with
    | nil => exact absurd rfl h3
    | cons d ds =>
      have hd : isDigit d = true := by
        simp only [List.all_cons, Bool.and_eq_true] at h4
        exact h4.1
      have hd2 : d ≠ 43 ∧ d ≠ 45 := by
        simp [isDigit] at hd
        omega
      have hsp := spanDigits_stop (d :: ds) r h4 hr
      rcases h2 with rfl | rfl | rfl
      · simp only [List.nil_append, List.cons_append, scanExp, h1, if_true, hd2.1, hd2.2,
          or_self, if_false]
        rw [← List.cons_append, hsp]
        simp
      · simp only [List.cons_append, List.nil_append, scanExp, h1, if_true, true_or]
        rw [← List.cons_append, hsp]
        simp
      · simp only [List.cons_append, List.nil_append, scanExp, h1, if_true, or_true]
        rw [← List.cons_append, hsp]
        simp


theorem ExpPart_head {ep : GoString} (h : ExpPart ep) (r : GoString) (hr : Delimited r)
    (c : Nat) (hc : (ep ++ r).head? = some c) : isDigit c = false ∧ c ≠ 46 := by
  rcases h with rfl | ⟨e, sign, ds, rfl, h1, _⟩
  · have := Delimited_head hr c hc
    exact ⟨this.1, this.2.1⟩
  · simp only [List.cons_append, List.head?_cons, Option.some.injEq] at hc
    subst hc
    simp only [isDigit, decide_eq_false_iff_not]
    omega

theorem FracPart_head {fp : GoString} (h : FracPart fp) (r : GoString)
    (hr : NoDigitAhead r) (c : Nat) (hc : (fp ++ r).head? = some c) : isDigit c = false := by
  rcases h with rfl | ⟨ds, rfl, _⟩
  · exact hr c hc
  · simp only [List.cons_append, List.head?_cons, Option.some.injEq] at hc
    subst hc
    decide

theorem scanNumber_lit {lit : GoString} (h : NumberLit lit) (rest : GoString)
    (hr : Delimited rest) : scanNumber (lit ++ rest) = some (lit, rest) := by
  obtain ⟨sign, ip, fp, ep, rfl, hs, hip, hfp, hep⟩ := h
  have hE : NoDigitAhead (ep ++ rest) := fun c hc => (ExpPart_head hep rest hr c hc).1
  have hEdot : ∀ c, (ep ++ rest).head? = some c → c ≠ 46 :=
    fun c hc => (ExpPart_head hep rest hr c hc).2
  have hF : NoDigitAhead (fp ++ (ep ++ rest)) := fun c hc => FracPart_head hfp _ hE c hc
  have hRd : NoDigitAhead rest := fun c hc => (Delimited_head hr c hc).1
  have hRe : ∀ c, rest.head? = some c → c ≠ 101 ∧ c ≠ 69 :=
    fun c hc => ⟨(Delimited_head hr c hc).2.2.1, (Delimited_head hr c hc).2.2.2⟩
  have h1 := scanIntPart_part hip (fp ++ (ep ++ rest)) hF
  have h2 := scanFrac_part hfp (ep ++ rest) hE hEdot
  have h3 := scanExp_part hep rest hRd hRe
  have hhead : (ip ++ (fp ++ (ep ++ rest))).head? ≠ some 45 := by
    rcases hip with rfl | ⟨d, ds, rfl, hd1, hd2, _⟩
    · simp
    · simp only [List.cons_append, List.head?_cons, ne_eq, Option.some.injEq]
      omega
  rcases hs with rfl | rfl
  · simp only [List.nil_append, List.append_assoc]
    unfold scanNumber
    simp only [hhead, if_false, h1, h2, h3, List.nil_append, List.append_assoc]
  · simp only [List.append_assoc, List.cons_append, List.nil_append]
    unfold scanNumber
    simp only [List.head?_cons, if_true, List.tail_cons, h1, h2, h3, List.cons_append,
      List.nil_append, List.append_assoc]

theorem NumberLit_head {lit : GoString} (h : NumberLit lit) :
    ∃ c tl, lit = c :: tl ∧ (c = 45 ∨ isDigit c = true) := by
  obtain ⟨sign, ip, fp, ep, rfl, hs, hip, _, _⟩ := h
  rcases hs with rfl | rfl
  · rcases hip with rfl | ⟨d, ds, rfl, hd1, hd2, _⟩
    · exact ⟨48, fp ++ ep, rfl, Or.inr (by decide)⟩
    · exact ⟨d, ds ++ (fp ++ ep), rfl, Or.inr (by simp [isDigit]; omega)⟩
  · exact ⟨45, ip ++ (fp ++ ep), rfl, Or.inl rfl⟩


theorem skipSpace_blank (ws r : GoString) (h : IsBlank ws)
    (hr : ∀ c, r.head? = some c → isSpace c = false) : skipSpace (ws ++ r) = r := by
  unfold IsBlank at h
  induction ws with
  | nil =>
    cases r with
    | nil => rfl
    | cons c r => simp [skipSpace, hr c rfl]
  | cons w ws ih =>
    simp only [List.all_cons, Bool.and_eq_true] at h
    simp [skipSpace, h.1, ih h.2]

theorem ValueStart_facts {c : Nat} (h : ValueStart c) :
    isSpace c = false ∧ c ≠ 93 ∧ c ≠ 125 ∧ c ≠ 44 := by
  unfold ValueStart at h
  simp only [isDigit, decide_eq_true_eq] at h
  simp only [isSpace, decide_eq_false_iff_not]
  omega

theorem JsonText_value_head {d : Nat} {t : GoString} {v : JValue}
    (h : JsonText d t (Syn.value v)) : ∃ c tl, t = c :: tl ∧ ValueStart c := by
  cases h with
  | litNull => exact ⟨110, _, rfl, by unfold ValueStart; omega⟩
  | litTrue => exact ⟨116, _, rfl, by unfold ValueStart; omega⟩
  | litFalse => exact ⟨102, _, rfl, by unfold ValueStart; omega⟩
  | @number _ _ hl =>
    obtain ⟨c, tl, rfl, hc⟩ := NumberLit_head hl
    refine ⟨c, tl, rfl, ?_⟩
    unfold ValueStart
    rcases hc with hc | hc
    · omega
    · exact Or.inr (Or.inr (Or.inr (Or.inr (Or.inl hc))))
  | @string _ raw _ => exact ⟨34, _, rfl, by unfold ValueStart; omega⟩
  | @emptyObject _ ws _ _ => exact ⟨123, _, rfl, by unfold ValueStart; omega⟩
  | @object _ ws body ms _ _ _ => exact ⟨123, _, rfl, by unfold ValueStart; omega⟩
  | @emptyArray _ ws _ _ => exact ⟨91, _, rfl, by unfold ValueStart; omega⟩
  | @array _ ws body _ _ _ => exact ⟨91, _, rfl, by unfold ValueStart; omega⟩

theorem JsonText_members_head {d : Nat} {t : GoString} {ms : List (GoString × JValue)}
    (h : JsonText d t (Syn.members ms)) : ∃ tl, t = 34 :: tl := by
  cases h with
  | lastMember => exact ⟨_, rfl⟩
  | nextMember => exact ⟨_, rfl⟩

theorem JsonText_elements_head {d : Nat} {t : GoString}
    (h : JsonText d t Syn.elements) : ∃ c tl, t = c :: tl ∧ ValueStart c := by
  cases h with
  | @lastElement _ vt ws v _ hv =>
    obtain ⟨c, tl, rfl, hc⟩ := JsonText_value_head hv
    exact ⟨c, _, rfl, hc⟩
  | @nextElement _ vt ws1 ws2 tail v _ _ hv _ =>
    obtain ⟨c, tl, rfl, hc⟩ := JsonText_value_head hv
    exact ⟨c, _, rfl, hc⟩


theorem ascii_true : ascii "true" = [116, 114, 117, 101] := by decide
theorem ascii_false : ascii "false" = [102, 97, 108, 115, 101] := by decide
theorem ascii_null : ascii "null" = [110, 117, 108, 108] := by decide

theorem parseValue_object (f d : Nat) (r : GoString) :
    parseValue (f + 1) d (123 :: r) =
      if d ≥ maxNestingDepth then none
      else
        match skipSpace r with
        | 125 :: r' => some (JValue.object, r')
        | r' =>
          match parseMembers f (d + 1) r' with
          | none => none
          | some (_, r'') => some (JValue.object, r'') := by
  simp [parseValue]

theorem parseValue_array (f d : Nat) (r : GoString) :
    parseValue (f + 1) d (91 :: r) =
      if d ≥ maxNestingDepth then none
      else
        match skipSpace r with
        | 93 :: r' => some (JValue.array, r')
        | r' =>
          match parseElements f (d + 1) r' with
          | none => none
          | some r'' => some (JValue.array, r'') := by
  simp [parseValue]

theorem parseMembers_step (f d : Nat) (r : GoString) :
    parseMembers (f + 1) d (34 :: r) =
      match scanString r with
      | none => none
      | some (key, r1) =>
        match skipSpace r1 with
        | 58 :: r2 =>
          match parseValue f d (skipSpace r2) with
          | none => none
          | some (v, r3) =>
            match skipSpace r3 with
            | 44 :: r4 =>
              match parseMembers f d (skipSpace r4) with
              | none => none
              | some (ms, r5) => some ((key, v) :: ms, r5)
            | 125 :: r4 => some ([(key, v)], r4)
            | _ => none
        | _ => none := by
  simp [parseMembers]

theorem parseElements_step (f d : Nat) (s : GoString) :
    parseElements (f + 1) d s =
      match parseValue f d s with
      | none => none
      | some (_, r1) =>
        match skipSpace r1 with
        | 44 :: r2 => parseElements f d (skipSpace r2)
        | 93 :: r2 => some r2
        | _ => none := by
  simp [parseElements]


theorem Delimited_blank_cons (ws : GoString) (c : Nat) (r : GoString) (h : IsBlank ws)
    (hc : c = 44 ∨ c = 125 ∨ c = 93) : Delimited (ws ++ c :: r) := by
  intro x hx
  unfold IsBlank at h
  cases ws with
  | nil =>
    simp only [List.nil_append, List.head?_cons, Option.some.injEq] at hx
    subst hx
    exact Or.inr hc
  | cons w ws =>
    simp only [List.cons_append, List.head?_cons, Option.some.injEq] at hx
    subst hx
    simp only [List.all_cons, Bool.and_eq_true] at h
    exact Or.inl h.1

theorem skipSpace_blank_cons (ws : GoString) (c : Nat) (r : GoString) (h : IsBlank ws)
    (hc : isSpace c = false) : skipSpace (ws ++ c :: r) = c :: r :=
  skipSpace_blank ws (c :: r) h (fun x hx => by
    simp only [List.head?_cons, Option.some.injEq] at hx
    subst hx
    exact hc)

/-- The parser accepts every text of the grammar and returns what the text stands for,
given fuel beyond the length of the text. -/
theorem JsonText_parses {d : Nat} {text : GoString} {syn : Syn} (h : JsonText d text syn) :
    ∀ fuel, text.length < fuel → ParsesAs fuel d text syn := by
  induction h with
  | litNull d =>
    intro fuel hf rest _
    obtain ⟨f, rfl⟩ : ∃ f, fuel = f + 1 := ⟨fuel - 1, by simp at hf; omega⟩
    simp [parseValue, HasPrefix, ascii_true, ascii_false, ascii_null, isDigit]
  | litTrue d =>
    intro fuel hf rest _
    obtain ⟨f, rfl⟩ : ∃ f, fuel = f + 1 := ⟨fuel - 1, by simp at hf; omega⟩
    simp [parseValue, HasPrefix, ascii_true, ascii_false, ascii_null, isDigit]
  | litFalse d =>
    intro fuel hf rest _
    obtain ⟨f, rfl⟩ : ∃ f, fuel = f + 1 := ⟨fuel - 1, by simp at hf; omega⟩
    simp [parseValue, HasPrefix, ascii_true, ascii_false, ascii_null, isDigit]
  | number d lit hl =>
    intro fuel hf rest hr
    obtain ⟨f, rfl⟩ : ∃ f, fuel = f + 1 := ⟨fuel - 1, by omega⟩
    have hscan := scanNumber_lit hl rest hr
    obtain ⟨c, tl, rfl, hc⟩ := NumberLit_head hl
    have hne : c ≠ 123 ∧ c ≠ 91 ∧ c ≠ 34 := by
      rcases hc with h | h
      · omega
      · simp [isDigit] at h
        omega
    simp only [List.cons_append] at hscan ⊢
    simp only [parseValue, hne.1, hne.2.1, hne.2.2, if_false, hc, if_true, hscan]
  | string d raw hraw =>
    intro fuel hf rest _
    obtain ⟨f, rfl⟩ : ∃ f, fuel = f + 1 := ⟨fuel - 1, by omega⟩
    have := scanString_raw hraw rest
    simp only [List.cons_append, List.append_assoc, List.singleton_append, List.nil_append]
    simp [parseValue, scanString, this]
  | emptyObject d ws hws hd =>
    intro fuel hf rest _
    obtain ⟨f, rfl⟩ : ∃ f, fuel = f + 1 := ⟨fuel - 1, by omega⟩
    have hsk : skipSpace (ws ++ 125 :: rest) = 125 :: rest :=
      skipSpace_blank_cons ws 125 rest hws (by decide)
    simp only [List.cons_append, List.append_assoc, List.singleton_append, List.nil_append]
    rw [parseValue_object, hsk]
    simp [Nat.not_le.2 hd]
  | object d ws body ms hws hd hbody ih =>
    intro fuel hf rest _
    obtain ⟨f, rfl⟩ : ∃ f, fuel = f + 1 := ⟨fuel - 1, by omega⟩
    obtain ⟨tl, rfl⟩ := JsonText_members_head hbody
    have hsk : skipSpace (ws ++ (34 :: tl ++ rest)) = 34 :: tl ++ rest :=
      skipSpace_blank_cons ws 34 (tl ++ rest) hws (by decide)
    have hm := ih f (by simp at hf ⊢; omega) rest
    simp only [ParsesAs] at hm
    simp only [List.cons_append, List.append_assoc]
    rw [parseValue_object]
    simp only [List.cons_append] at hsk hm
    rw [hsk]
    simp [Nat.not_le.2 hd, hm]
  | emptyArray d ws hws hd =>
    intro fuel hf rest _
    obtain ⟨f, rfl⟩ : ∃ f, fuel = f + 1 := ⟨fuel - 1, by omega⟩
    have hsk : skipSpace (ws ++ 93 :: rest) = 93 :: rest :=
      skipSpace_blank_cons ws 93 rest hws (by decide)
    simp only [List.cons_append, List.append_assoc, List.singleton_append, List.nil_append]
    rw [parseValue_array, hsk]
    simp [Nat.not_le.2 hd]
  | array d ws body hws hd hbody ih =>
    intro fuel hf rest _
    obtain ⟨f, rfl⟩ : ∃ f, fuel = f + 1 := ⟨fuel - 1, by omega⟩
    obtain ⟨c, tl, rfl, hc⟩ := JsonText_elements_head hbody
    have hcf := ValueStart_facts hc
    have hsk : skipSpace (ws ++ (c :: tl ++ rest)) = c :: tl ++ rest :=
      skipSpace_blank_cons ws c (tl ++ rest) hws hcf.1
    have hm := ih f (by simp at hf ⊢; omega) rest
    simp only [ParsesAs] at hm
    simp only [List.cons_append, List.append_assoc]
    rw [parseValue_array]
    simp only [List.cons_append] at hsk hm
    rw [hsk]
    simp only [ge_iff_le, Nat.not_le.2 hd, if_false]
    split
    · rename_i heq
      simp only [List.cons.injEq] at heq
      exact absurd heq.1 hcf.2.1
    · simp [hm]
  | lastMember d key ws1 ws2 vt ws3 v hkey h1 h2 h3 hv ih =>
    intro fuel hf rest
    obtain ⟨f, rfl⟩ : ∃ f, fuel = f + 1 := ⟨fuel - 1, by omega⟩
    obtain ⟨c, tl, rfl, hc⟩ := JsonText_value_head hv
    have hcf := ValueStart_facts hc
    have hval := ih f (by simp at hf ⊢; omega) (ws3 ++ 125 :: rest)
      (Delimited_blank_cons ws3 125 rest h3 (by omega))
    have e1 := scanString_raw hkey (ws1 ++ 58 :: (ws2 ++ (c :: tl ++ (ws3 ++ 125 :: rest))))
    have e2 : skipSpace (ws1 ++ 58 :: (ws2 ++ (c :: tl ++ (ws3 ++ 125 :: rest))))
        = 58 :: (ws2 ++ (c :: tl ++ (ws3 ++ 125 :: rest))) :=
      skipSpace_blank_cons ws1 58 _ h1 (by decide)
    have e3 : skipSpace (ws2 ++ (c :: tl ++ (ws3 ++ 125 :: rest)))
        = c :: tl ++ (ws3 ++ 125 :: rest) :=
      skipSpace_blank_cons ws2 c _ h2 hcf.1
    have e4 : skipSpace (ws3 ++ 125 :: rest) = 125 :: rest :=
      skipSpace_blank_cons ws3 125 rest h3 (by decide)
    simp only [List.cons_append, List.append_assoc, List.singleton_append, List.nil_append]
    rw [parseMembers_step]
    simp only [scanString, List.cons_append] at e1 e2 e3 hval ⊢
    rw [e1]
    simp only [e2, e3, hval, e4]
  | nextMember d key ws1 ws2 vt ws3 ws4 tail v ms hkey h1 h2 h3 h4 hv htail ihv iht =>
    intro fuel hf rest
    obtain ⟨f, rfl⟩ : ∃ f, fuel = f + 1 := ⟨fuel - 1, by omega⟩
    obtain ⟨c, tl, rfl, hc⟩ := JsonText_value_head hv
    obtain ⟨tl', rfl⟩ := JsonText_members_head htail
    have hcf := ValueStart_facts hc
    have hval := ihv f (by simp at hf ⊢; omega) (ws3 ++ 44 :: (ws4 ++ (34 :: tl' ++ rest)))
      (Delimited_blank_cons ws3 44 _ h3 (by omega))
    have hrest := iht f (by simp at hf ⊢; omega) rest
    simp only [ParsesAs] at hrest
    have e1 := scanString_raw hkey
      (ws1 ++ 58 :: (ws2 ++ (c :: tl ++ (ws3 ++ 44 :: (ws4 ++ (34 :: tl' ++ rest))))))
    have e2 : skipSpace
        (ws1 ++ 58 :: (ws2 ++ (c :: tl ++ (ws3 ++ 44 :: (ws4 ++ (34 :: tl' ++ rest))))))
        = 58 :: (ws2 ++ (c :: tl ++ (ws3 ++ 44 :: (ws4 ++ (34 :: tl' ++ rest))))) :=
      skipSpace_blank_cons ws1 58 _ h1 (by decide)
    have e3 : skipSpace (ws2 ++ (c :: tl ++ (ws3 ++ 44 :: (ws4 ++ (34 :: tl' ++ rest)))))
        = c :: tl ++ (ws3 ++ 44 :: (ws4 ++ (34 :: tl' ++ rest))) :=
      skipSpace_blank_cons ws2 c _ h2 hcf.1
    have e4 : skipSpace (ws3 ++ 44 :: (ws4 ++ (34 :: tl' ++ rest)))
        = 44 :: (ws4 ++ (34 :: tl' ++ rest)) :=
      skipSpace_blank_cons ws3 44 _ h3 (by decide)
    have e5 : skipSpace (ws4 ++ (34 :: tl' ++ rest)) = 34 :: tl' ++ rest :=
      skipSpace_blank_cons ws4 34 _ h4 (by decide)
    simp only [List.cons_append, List.append_assoc, List.singleton_append, List.nil_append]
    rw [parseMembers_step]
    simp only [scanString, List.cons_append] at e1 e2 e3 e4 e5 hval hrest ⊢
    rw [e1]
    simp only [e2, e3, hval, e4, e5, hrest]
  | lastElement d vt ws v hws hv ih =>
    intro fuel hf rest
    obtain ⟨f, rfl⟩ : ∃ f, fuel = f + 1 := ⟨fuel - 1, by omega⟩
    have hval := ih f (by simp at hf ⊢; omega) (ws ++ 93 :: rest)
      (Delimited_blank_cons ws 93 rest hws (by omega))
    have e4 : skipSpace (ws ++ 93 :: rest) = 93 :: rest :=
      skipSpace_blank_cons ws 93 rest hws (by decide)
    simp only [List.append_assoc, List.singleton_append, List.cons_append, List.nil_append]
      at hval e4 ⊢
    rw [parseElements_step, hval]
    simp only [e4]
  | nextElement d vt ws1 ws2 tail v h1 h2 hv htail ihv iht =>
    intro fuel hf rest
    obtain ⟨f, rfl⟩ : ∃ f, fuel = f + 1 := ⟨fuel - 1, by omega⟩
    obtain ⟨c, tl, rfl, hc⟩ := JsonText_elements_head htail
    have hcf := ValueStart_facts hc
    have hval := ihv f (by simp at hf ⊢; omega) (ws1 ++ 44 :: (ws2 ++ (c :: tl ++ rest)))
      (Delimited_blank_cons ws1 44 _ h1 (by omega))
    have hrest := iht f (by simp at hf ⊢; omega) rest
    simp only [ParsesAs] at hrest
    have e4 : skipSpace (ws1 ++ 44 :: (ws2 ++ (c :: tl ++ rest)))
        = 44 :: (ws2 ++ (c :: tl ++ rest)) :=
      skipSpace_blank_cons ws1 44 _ h1 (by decide)
    have e5 : skipSpace (ws2 ++ (c :: tl ++ rest)) = c :: tl ++ rest :=
      skipSpace_blank_cons ws2 c _ h2 hcf.1
    simp only [List.append_assoc, List.cons_append, List.nil_append] at hval hrest e4 e5 ⊢
    rw [parseElements_step, hval]
    simp only [e4, e5, hrest]


/-- The whole payload of an object text parses to its members. -/
theorem parseTop_ObjectText {payload : GoString} {ms : List (GoString × JValue)}
    (h : ObjectText payload ms) : parseTop payload = some (JTop.object ms) := by
  obtain ⟨ws0, ws1, body, ws2, h0, h1, h2, rfl, hb⟩ := h
  have e0 : skipSpace (ws0 ++ 123 :: (ws1 ++ (body ++ ws2))) = 123 :: (ws1 ++ (body ++ ws2)) :=
    skipSpace_blank_cons ws0 123 _ h0 (by decide)
  have e2 : skipSpace ws2 = [] := by
    have := skipSpace_blank ws2 [] h2 (by simp)
    simpa using this
  unfold parseTop
  simp only [e0]
  rcases hb with ⟨rfl, rfl⟩ | hm
  · have e1 : skipSpace (ws1 ++ ([125] ++ ws2)) = 125 :: ws2 :=
      skipSpace_blank_cons ws1 125 ws2 h1 (by decide)
    simp only [e1, e2, if_true]
  · obtain ⟨tl, rfl⟩ := JsonText_members_head hm
    have e1 : skipSpace (ws1 ++ (34 :: tl ++ ws2)) = 34 :: tl ++ ws2 :=
      skipSpace_blank_cons ws1 34 (tl ++ ws2) h1 (by decide)
    have hp := JsonText_parses hm ((ws0 ++ 123 :: (ws1 ++ (34 :: tl ++ ws2))).length + 1)
      (by simp; omega) ws2
    simp only [List.cons_append] at e1 hp
    simp only [e1, List.cons_append, hp, e2, if_true]

/-! ## JSON: storing the members -/

theorem storeMembers_append (c : StandardClaims) (e : Option Error)
    (a b : List (GoString × JValue)) :
    storeMembers c e (a ++ b) = storeMembers (storeMembers c e a).1 (storeMembers c e a).2 b := by
  induction a generalizing c e with
  | nil => rfl
  | cons m a ih =>
    obtain ⟨key, v⟩ := m
    simp only [List.cons_append, storeMembers]
    exact ih _ _

theorem storeMember_exp (c : StandardClaims) (key : GoString) (n : Int) (hk : NamesExp key)
    (hn : IsInt64 n) :
    storeMember c key (JValue.number (formatInt n)) = ({ c with ExpiresAt := n }, none) := by
  unfold NamesExp at hk
  simp [storeMember, hk, ParseInt_formatInt n hn]

theorem storeMember_ok (c : StandardClaims) (m : GoString × JValue) (h : MemberOk m) :
    (storeMember c m.1 m.2).2 = none ∧
      ((NamesExp m.1 → m.2 = JValue.null) →
        (storeMember c m.1 m.2).1.ExpiresAt = c.ExpiresAt) := by
  obtain ⟨key, v⟩ := m
  unfold MemberOk at h
  unfold NamesExp
  simp only at h ⊢
  cases hf : findField (unquote key) with
  | none => simp [storeMember, hf]
  | some f =>
    rw [hf] at h
    cases v with
    | null => simp [storeMember, hf]
    | bool => simp at h
    | array => simp at h
    | object => simp at h
    | number lit =>
      simp only at h
      obtain ⟨hfld, k, hk, rfl⟩ := h
      have hp := ParseInt_formatInt k hk
      rcases hfld with rfl | rfl | rfl
      · simp [storeMember, hf, hp]
      · simp [storeMember, hf, hp]
      · simp [storeMember, hf, hp]
    | string raw =>
      simp only at h
      rcases h with rfl | rfl | rfl | rfl <;> simp [storeMember, hf]

theorem storeMembers_ok (c : StandardClaims) (ms : List (GoString × JValue))
    (hok : ∀ m ∈ ms, MemberOk m) (hnull : ∀ m ∈ ms, NamesExp m.1 → m.2 = JValue.null) :
    (storeMembers c none ms).2 = none ∧ (storeMembers c none ms).1.ExpiresAt = c.ExpiresAt := by
  induction ms generalizing c with
  | nil => exact ⟨rfl, rfl⟩
  | cons m ms ih =>
    have h1 := storeMember_ok c m (hok m (List.mem_cons_self _ _))
    have h2 := h1.2 (hnull m (List.mem_cons_self _ _))
    obtain ⟨key, v⟩ := m
    simp only [storeMembers, Option.isSome_none, Bool.false_eq_true, if_false]
    simp only at h1 h2
    rw [h1.1]
    have := ih (storeMember c key v).1 (fun m hm => hok m (List.mem_cons_of_mem _ hm))
      (fun m hm => hnull m (List.mem_cons_of_mem _ hm))
    exact ⟨this.1, this.2.trans h2⟩

theorem storeMembers_noerr (c : StandardClaims) (ms : List (GoString × JValue))
    (hok : ∀ m ∈ ms, MemberOk m) : (storeMembers c none ms).2 = none := by
  induction ms generalizing c with
  | nil => rfl
  | cons m ms ih =>
    have h1 := storeMember_ok c m (hok m (List.mem_cons_self _ _))
    obtain ⟨key, v⟩ := m
    simp only [storeMembers, Option.isSome_none, Bool.false_eq_true, if_false]
    simp only at h1
    rw [h1.1]
    exact ih _ (fun m hm => hok m (List.mem_cons_of_mem _ hm))

/-- Storing the members of an object: when every member can be stored and the last
member naming `exp` with a value other than `null` carries `n`, the claims end with
`ExpiresAt = n` and no error. -/
theorem storeMembers_exp (pre post : List (GoString × JValue)) (key : GoString) (n : Int)
    (hk : NamesExp key) (hn : IsInt64 n) (hpre : ∀ m ∈ pre, MemberOk m)
    (hpost : ∀ m ∈ post, MemberOk m)
    (hlast : ∀ m ∈ post, NamesExp m.1 → m.2 = JValue.null) :
    ∃ claims, storeMembers {} none (pre ++ (key, JValue.number (formatInt n)) :: post)
      = (claims, none) ∧ claims.ExpiresAt = n := by
  have h1 := storeMembers_noerr {} pre hpre
  rw [storeMembers_append, h1]
  simp only [storeMembers, Option.isSome_none, Bool.false_eq_true, if_false,
    storeMember_exp _ key n hk hn]
  have h2 := storeMembers_ok { (storeMembers {} none pre).1 with ExpiresAt := n } post hpost hlast
  refine ⟨_, Prod.ext rfl h2.1, h2.2⟩


/-! ## Tokens: the expiration claim -/

theorem RawString_of_plain (l : GoString) (h : l.all isPlainChar = true) : RawString l := by
  induction l with
  | nil => exact RawString.nil
  | cons c l ih =>
    simp only [List.all_cons, Bool.and_eq_true] at h
    have hc := h.1
    simp only [isPlainChar, decide_eq_true_eq] at hc
    exact RawString.plain c l hc.1 hc.2.1 hc.2.2 (ih h.2)

theorem NumberLit_formatInt (n : Int) : NumberLit (formatInt n) := by
  obtain ⟨sign, d, ds, h1, h2, h3, h4, h5, _⟩ := formatInt_shape n
  refine ⟨sign, d :: ds, [], [], by simpa using h1, ?_, ?_, Or.inl rfl, Or.inl rfl⟩
  · rcases h2 with ⟨hs, _⟩ | ⟨hs, _⟩
    · exact Or.inl hs
    · exact Or.inr hs
  · by_cases h48 : d = 48
    · left
      rw [h48, h5 h48]
    · right
      refine ⟨d, ds, rfl, ?_, ?_, h4⟩ <;> simp [isDigit] at h3 <;> omega

theorem Unix_of_range (n : Int) (h1 : -(2 ^ 63) ≤ n) (h2 : n ≤ 9223371974719179007) :
    Unix n 0 = ⟨n * 1000000000⟩ := by
  simp only [Unix, wrapInt64, unixToInternal, Second]
  norm_num
  omega

/-- The key matching of `encoding/json` on examples: exact names, names up to case, escaped
letters and the long s (U+017F) name a claim; a longer or shorter key does not. -/
theorem findField_examples :
    findField (unquote (ascii "exp")) = some ClaimField.exp ∧
    findField (unquote (ascii "EXP")) = some ClaimField.exp ∧
    findField (unquote (ascii "\\u0065xp")) = some ClaimField.exp ∧
    findField (unquote (ascii "expires")) = none ∧
    findField (unquote (ascii "ex")) = none ∧
    findField (unquote [105, 0xC5, 0xBF, 115]) = some ClaimField.iss ∧
    findField (unquote (ascii "Sub")) = some ClaimField.sub ∧
    findField (unquote (ascii "iat")) = some ClaimField.iat := by
  decide

/-- C5 (amended): let the middle segment of a three-segment token be the unpadded URL-safe
base64 encoding of a JSON object in which every member that names a registered claim can be
stored (`null`, a string for a string claim, an integer of the signed 64-bit range for an
integer claim) and the last member naming `exp` with a value other than `null` carries the
integer `n`, with `-2^63 ≤ n ≤ 9223371974719179007`. Then `extractExpirationDate` returns no
error and the instant `n` seconds after the Unix epoch, zero nanoseconds, whatever the first
and third segments hold. -/
theorem extractExpirationDate_exp_claim (hd sig payload : GoString)
    (pre post : List (GoString × JValue)) (key : GoString) (n : Int)
    (h1 : 46 ∉ hd) (h3 : 46 ∉ sig) (hb : IsBytes payload)
    (hobj : ObjectText payload (pre ++ (key, JValue.number (formatInt n)) :: post))
    (hkey : NamesExp key) (hn1 : -(2 ^ 63) ≤ n) (hn2 : n ≤ 9223371974719179007)
    (hpre : ∀ m ∈ pre, MemberOk m) (hpost : ∀ m ∈ post, MemberOk m)
    (hlast : ∀ m ∈ post, NamesExp m.1 → m.2 = JValue.null) :
    extractExpirationDate (hd ++ 46 :: (EncodeToString payload ++ 46 :: sig))
      = (Unix n 0, none) ∧ Unix n 0 = ⟨n * 1000000000⟩ := by
  have hn : IsInt64 n := ⟨hn1, by omega⟩
  obtain ⟨claims, hc, he⟩ := storeMembers_exp pre post key n hkey hn hpre hpost hlast
  have hj : jsonUnmarshalClaims payload = (claims, none) := by
    simp only [jsonUnmarshalClaims, parseTop_ObjectText hobj, hc]
  refine ⟨?_, Unix_of_range n hn1 hn2⟩
  rw [extractExpirationDate_of_payload hd sig payload h1 h3 hb claims hj, he]

/-- Witness for C5: the payload `{"id":"u1","exp": 1700000000}`, carried by the token
`x.eyJpZCI6InUxIiwiZXhwIjogMTcwMDAwMDAwMH0.y`, gives epoch-second 1700000000; and in the
payload `{"exp":7,"EXP":5}` the later member, whose key names `exp` up to case, decides:
the result is epoch-second 5. -/
theorem extractExpirationDate_exp_claim_witness :
    (ascii "x.eyJpZCI6InUxIiwiZXhwIjogMTcwMDAwMDAwMH0.y"
      = ascii "x" ++ 46 ::
          (EncodeToString (ascii "\x7b\"id\":\"u1\",\"exp\": 1700000000\x7d") ++ 46 :: ascii "y") ∧
    extractExpirationDate (ascii "x" ++ 46 ::
        (EncodeToString (ascii "\x7b\"id\":\"u1\",\"exp\": 1700000000\x7d") ++ 46 :: ascii "y"))
      = (Unix 1700000000 0, none) ∧
    Unix 1700000000 0 = ⟨1700000000 * 1000000000⟩) ∧
    (extractExpirationDate (ascii "x" ++ 46 ::
        (EncodeToString (ascii "\x7b\"exp\":7,\"EXP\":5\x7d") ++ 46 :: ascii "y"))
      = (Unix 5 0, none) ∧
    Unix 5 0 = ⟨5 * 1000000000⟩) :=
  ⟨⟨by decide,
    extractExpirationDate_exp_claim (ascii "x") (ascii "y")
      (ascii "\x7b\"id\":\"u1\",\"exp\": 1700000000\x7d")
      [(ascii "id", JValue.string (ascii "u1"))] [] (ascii "exp") 1700000000
      (by decide) (by decide) (by unfold IsBytes; decide)
      ⟨[], [], ascii "\"id\":\"u1\",\"exp\": 1700000000\x7d", [], rfl, rfl, rfl, by decide,
        Or.inr ((by decide : 34 :: (ascii "id" ++ 34 :: ([] ++ 58 :: ([] ++
            ((34 :: (ascii "u1" ++ [34])) ++ ([] ++ 44 :: ([] ++
              (34 :: (ascii "exp" ++ 34 :: ([] ++ 58 :: ([32] ++
                (formatInt 1700000000 ++ ([] ++ [125]))))))))))))
            = ascii "\"id\":\"u1\",\"exp\": 1700000000\x7d") ▸
          JsonText.nextMember 1 (ascii "id") [] [] (34 :: (ascii "u1" ++ [34])) [] []
            (34 :: (ascii "exp" ++ 34 :: ([] ++ 58 :: ([32] ++
                (formatInt 1700000000 ++ ([] ++ [125]))))))
            (JValue.string (ascii "u1")) [(ascii "exp", JValue.number (formatInt 1700000000))]
            (RawString_of_plain _ (by decide)) rfl rfl rfl rfl
            (JsonText.string 1 (ascii "u1") (RawString_of_plain _ (by decide)))
            (JsonText.lastMember 1 (ascii "exp") [] [32] (formatInt 1700000000) []
              (JValue.number (formatInt 1700000000))
              (RawString_of_plain _ (by decide)) rfl rfl rfl
              (JsonText.number 1 _ (NumberLit_formatInt 1700000000))))⟩
      (by unfold NamesExp; decide) (by decide) (by decide)
      (by
        intro m hm
        simp only [List.mem_singleton] at hm
        subst hm
        have hf : findField (unquote (ascii "id")) = none := by decide
        simp [MemberOk, hf])
      (by simp) (by simp)⟩,
    extractExpirationDate_exp_claim (ascii "x") (ascii "y")
      (ascii "\x7b\"exp\":7,\"EXP\":5\x7d")
      [(ascii "exp", JValue.number (formatInt 7))] [] (ascii "EXP") 5
      (by decide) (by decide) (by unfold IsBytes; decide)
      ⟨[], [], ascii "\"exp\":7,\"EXP\":5\x7d", [], rfl, rfl, rfl, by decide,
        Or.inr ((by decide : 34 :: (ascii "exp" ++ 34 :: ([] ++ 58 :: ([] ++
            (formatInt 7 ++ ([] ++ 44 :: ([] ++
              (34 :: (ascii "EXP" ++ 34 :: ([] ++ 58 :: ([] ++
                (formatInt 5 ++ ([] ++ [125]))))))))))))
            = ascii "\"exp\":7,\"EXP\":5\x7d") ▸
          JsonText.nextMember 1 (ascii "exp") [] [] (formatInt 7) [] []
            (34 :: (ascii "EXP" ++ 34 :: ([] ++ 58 :: ([] ++ (formatInt 5 ++ ([] ++ [125]))))))
            (JValue.number (formatInt 7)) [(ascii "EXP", JValue.number (formatInt 5))]
            (RawString_of_plain _ (by decide)) rfl rfl rfl rfl
            (JsonText.number 1 _ (NumberLit_formatInt 7))
            (JsonText.lastMember 1 (ascii "EXP") [] [] (formatInt 5) []
              (JValue.number (formatInt 5))
              (RawString_of_plain _ (by decide)) rfl rfl rfl
              (JsonText.number 1 _ (NumberLit_formatInt 5))))⟩
      (by unfold NamesExp; decide) (by decide) (by decide)
      (by
        intro m hm
        simp only [List.mem_singleton] at hm
        subst hm
        have hf : findField (unquote (ascii "exp")) = some ClaimField.exp := by decide
        simp only [MemberOk, hf]
        exact ⟨Or.inl trivial, 7, by unfold IsInt64; decide, rfl⟩)
      (by simp) (by simp)⟩

/-- C5 (counterexample): the payload `{"exp":9223372036854775808}` is a JSON object with an
integer `exp` claim, yet `extractExpirationDate` returns an error and the zero time: the
claim does not fit the 64-bit field it is decoded into. -/
theorem extractExpirationDate_exp_out_of_range :
    extractExpirationDate (ascii "x" ++ 46 ::
        (EncodeToString (ascii "\x7b\"exp\":9223372036854775808\x7d") ++ 46 :: ascii "y"))
      = (zeroTime, some (Error.wrap "failed to unmarshal token claims"
          (Error.jsonType "exp"))) := by
  decide

end Pbclient
